import Mathlib

/-!
# Verification of the claw-poker core engine

Shallow embedding of the repository's core modules:

* the hand evaluator (`evaluateHand`, `evaluate5Cards`, `compareHands`, …),
* the commitment-sealed deck (`SecureDeck`: `deal`, `revealSalt`, …),
* the table engine (`Table`: `addPlayer`, `startHand`, `fold`, `check`,
  `call`, `raise`, `allIn` and the private helpers they invoke).

Modelling conventions, applied uniformly:

* JavaScript numbers holding chip amounts are modelled as exact rationals
  (`ℚ`); the literal `0.05` is modelled as `1/20`.  Every concrete input used
  in a theorem below has been checked to make IEEE-754 double arithmetic and
  exact rational arithmetic coincide (`30 * 0.05 = 1.5`, `60 * 0.05 = 3.0`
  hold exactly in doubles).
* `Map` objects are association lists in insertion order; `Map.set` replaces
  the first matching key in place, appending when the key is absent.
* `Array.prototype.sort` is modelled by `List.insertionSort` (a stable sort);
  every use in the source either sorts values whose relative order of equal
  elements is irrelevant downstream, or uses a comparator that never ties.
* `crypto` randomness (the shuffled deck order, the salt) and `Date.now()`
  are modelled as explicit parameters, and `crypto.createHash('sha256')`
  followed by `digest('hex')` is modelled as an abstract string function
  `hashFn : String → String` over which all theorems are parametric.
* `throw` sites are modelled by an explicit error component
  (`Option PokerError`) paired with the table state that the caller's
  mutable object holds when the exception propagates.
-/

set_option maxRecDepth 8000

/- Batteries seals the rational-number operations; reopening them lets
concrete table computations be settled by `decide`. -/
unseal Rat.add Rat.sub Rat.mul Rat.inv

namespace ClawPoker

/-! ## Cards (src/server/deck.js) -/

/-- `SUITS = ['♠', '♥', '♦', '♣']`. -/
def SUITS : List String := ["S", "H", "D", "C"]

/-- `RANKS = ['2', …, '10', 'J', 'Q', 'K', 'A']`. -/
def RANKS : List String :=
  ["2", "3", "4", "5", "6", "7", "8", "9", "10", "J", "Q", "K", "A"]

/-- JS `Array.prototype.indexOf`: index of the first occurrence, `-1` when
absent. -/
def jsIndexOf (l : List String) (x : String) : Int :=
  match l.findIdx? (· == x) with
  | some n => (n : Int)
  | none => -1

/-- `class Card`: rank, suit, and `value = RANKS.indexOf(rank)` (stored by the
constructor). -/
structure Card where
  rank : String
  suit : String
  value : Int
  deriving DecidableEq, Repr

/-- The `Card` constructor. -/
def mkCard (rank suit : String) : Card :=
  ⟨rank, suit, jsIndexOf RANKS rank⟩

/-- `Card.toString()`: rank concatenated with suit. -/
def Card.toStr (c : Card) : String := c.rank ++ c.suit

/-! ## Hand evaluator (src/server/evaluator.js) -/

/-- Sort order used by `evaluate5Cards`'s `sort((a, b) => b.value - a.value)`:
descending card value. -/
def cardBefore (a b : Card) : Prop := b.value ≤ a.value

instance : DecidableRel cardBefore := fun a b => Int.decLe b.value a.value

/-- Descending order on integers, for `sort((a, b) => b - a)`. -/
def intBefore (a b : Int) : Prop := b ≤ a

instance : DecidableRel intBefore := fun a b => Int.decLe b a

/-- Descending order on counts, for `counts.sort((a, b) => b - a)`. -/
def natBefore (a b : Nat) : Prop := b ≤ a

instance : DecidableRel natBefore := fun a b => Nat.decLe b a

instance : IsTotal Nat natBefore := ⟨fun a b => le_total b a⟩

instance : IsTrans Nat natBefore := ⟨fun _ _ _ h h' => le_trans h' h⟩

/-- The result object of `evaluate5Cards` / `evaluateHand`: a ranking
(1–10), the tie-break kicker array, and (for `evaluateHand`) the winning
5-card combination. -/
structure HandResult where
  ranking : Int
  kickers : List Int
  cards : List Card
  deriving DecidableEq, Repr

/-- `checkStraight(ranks)`: all adjacent differences of the descending rank
list equal 1. -/
def checkStraight : List Int → Bool
  | a :: b :: rest => decide (a - b = 1) && checkStraight (b :: rest)
  | _ => true

/-- `checkWheelStraight(ranks)`: the ranks, sorted descending, are exactly
`[12, 3, 2, 1, 0]` (A-2-3-4-5). -/
def checkWheelStraight (ranks : List Int) : Bool :=
  List.insertionSort intBefore ranks == [12, 3, 2, 1, 0]

/-- One step of `rankCounts[rank] = (rankCounts[rank] || 0) + 1`: increment
the multiplicity of `r`, creating the entry when absent. -/
def bumpCount : List (Int × Nat) → Int → List (Int × Nat)
  | [], r => [(r, 1)]
  | (k, c) :: rest, r =>
      if k = r then (k, c + 1) :: rest else (k, c) :: bumpCount rest r

/-- The `rankCounts` object: multiplicity of each rank, keyed by rank. -/
def countRanks (ranks : List Int) : List (Int × Nat) :=
  ranks.foldl bumpCount []

/-- Order used by `getKickers`'s comparator: by multiplicity descending,
then by rank descending (the comparator never returns 0 on distinct keys). -/
def pairBefore (a b : Int × Nat) : Prop :=
  b.2 < a.2 ∨ (b.2 = a.2 ∧ b.1 ≤ a.1)

instance : DecidableRel pairBefore := fun a b =>
  inferInstanceAs (Decidable (b.2 < a.2 ∨ (b.2 = a.2 ∧ b.1 ≤ a.1)))

/-- `getKickers(rankCounts, pattern)`: all distinct ranks, sorted by
multiplicity then rank, both descending.  (The source ignores `pattern`:
it pushes every entry of the sorted list.) -/
def getKickers (rankCounts : List (Int × Nat)) : List Int :=
  (List.insertionSort pairBefore rankCounts).map (·.1)

/-- `evaluate5Cards(cards)`. -/
def evaluate5Cards (cards : List Card) : HandResult :=
  let sorted := List.insertionSort cardBefore cards
  let ranks := sorted.map (·.value)
  let suits := sorted.map (·.suit)
  let isFlush := suits.all (· == suits.headI)
  let isStraight := checkStraight ranks
  let isWheelStraight := checkWheelStraight ranks
  let rankCounts := countRanks ranks
  let counts := List.insertionSort natBefore (rankCounts.map (·.2))
  if isFlush && isStraight && ranks.headI == 12 then
    ⟨10, ranks, []⟩                                       -- ROYAL_FLUSH
  else if isFlush && (isStraight || isWheelStraight) then
    ⟨9, if isWheelStraight then [3, 2, 1, 0, -1] else ranks, []⟩
  else if counts.headI == 4 then
    ⟨8, getKickers rankCounts, []⟩                        -- FOUR_OF_A_KIND
  else if counts.headI == 3 && counts.getD 1 0 == 2 then
    ⟨7, getKickers rankCounts, []⟩                        -- FULL_HOUSE
  else if isFlush then
    ⟨6, ranks, []⟩                                        -- FLUSH
  else if isStraight || isWheelStraight then
    ⟨5, if isWheelStraight then [3] else [ranks.headI], []⟩
  else if counts.headI == 3 then
    ⟨4, getKickers rankCounts, []⟩                        -- THREE_OF_A_KIND
  else if counts.headI == 2 && counts.getD 1 0 == 2 then
    ⟨3, getKickers rankCounts, []⟩                        -- TWO_PAIR
  else if counts.headI == 2 then
    ⟨2, getKickers rankCounts, []⟩                        -- PAIR
  else
    ⟨1, ranks, []⟩                                        -- HIGH_CARD

/-- The kicker-comparison loop of `compareHands`, bounded by the length of
the first kicker array.  `none` models the `NaN` JavaScript produces when the
second array is shorter than the first (`a.kickers[i] - undefined`). -/
def compareKickers : List Int → List Int → Option Int
  | [], _ => some 0
  | _ :: _, [] => none
  | a :: as, b :: bs => if a ≠ b then some (a - b) else compareKickers as bs

/-- `compareHands(a, b)`. -/
def compareHands (a b : HandResult) : Option Int :=
  if a.ranking ≠ b.ranking then some (a.ranking - b.ranking)
  else compareKickers a.kickers b.kickers

/-- JS `compareHands(...) > 0`, where a `NaN` comparison is false. -/
def jsGtZero : Option Int → Bool
  | some v => decide (0 < v)
  | none => false

/-- `getCombinations(arr, size)`. -/
def getCombinations : List Card → Nat → List (List Card)
  | _, 0 => []
  | arr, 1 => arr.map fun el => [el]
  | [], _ + 2 => []
  | el :: rest, s + 2 =>
      ((getCombinations rest (s + 1)).map fun combo => el :: combo) ++
        getCombinations rest (s + 2)
termination_by structural arr _ => arr

/-- The loop body of `evaluateHand`: keep `bestHand` unless it is absent or
the new combination's result beats it, in which case store the result with
its `cards` field set to the combination. -/
def betterHand (best : Option HandResult) (combo : List Card) :
    Option HandResult :=
  let result := evaluate5Cards combo
  match best with
  | none => some { result with cards := combo }
  | some b =>
      if jsGtZero (compareHands result b) then
        some { result with cards := combo }
      else some b

/-- `evaluateHand(cards)`: best 5-card combination under `compareHands`.
`none` models the `'Need at least 5 cards to evaluate'` throw. -/
def evaluateHand (cards : List Card) : Option HandResult :=
  if cards.length < 5 then none
  else (getCombinations cards 5).foldl betterHand none

/-! ## Commitment-sealed deck (src/server/deck.js, `class SecureDeck`) -/

/-- `_buildDeck()`: the 52 cards, suits outer, ranks inner. -/
def buildDeck : List Card :=
  SUITS.flatMap fun suit => RANKS.map fun rank => mkCard rank suit

/-- The comma-joined string of card names hashed by `_generateCommitment`. -/
def deckString (cards : List Card) : String :=
  String.intercalate "," (cards.map Card.toStr)

/-- The `SecureDeck` object state. -/
structure SecureDeck where
  cards : List Card
  salt : String
  commitment : String
  revealed : Bool
  deriving DecidableEq, Repr

/-- The `SecureDeck` constructor.  The CSPRNG Fisher-Yates shuffle and the
random salt are modelled as parameters: `shuffled` is the post-shuffle
ordering (a permutation of `buildDeck`) and `salt` the 32 random bytes in
hex.  `_generateCommitment()` stores `hashFn(deckString + salt)` where
`hashFn` models the SHA-256 hex digest. -/
def mkSecureDeck (hashFn : String → String) (shuffled : List Card)
    (salt : String) : SecureDeck :=
  { cards := shuffled
    salt := salt
    commitment := hashFn (deckString shuffled ++ salt)
    revealed := false }

/-- `deal()`: pops the last card of the array; `none` models the
`'Deck is empty'` throw. -/
def SecureDeck.dealOne (d : SecureDeck) : Option (Card × SecureDeck) :=
  match d.cards.getLast? with
  | none => none
  | some c => some (c, { d with cards := d.cards.dropLast })

/-- A sequence of `n` `deal()` calls, returning the dealt cards in deal
order; `none` if the deck runs out. -/
def SecureDeck.dealMany (d : SecureDeck) : Nat → Option (List Card × SecureDeck)
  | 0 => some ([], d)
  | n + 1 =>
    match d.dealOne with
    | none => none
    | some (c, d') =>
      match d'.dealMany n with
      | none => none
      | some (rest, d'') => some (c :: rest, d'')

/-- The object returned by `revealSalt()`. -/
structure RevealData where
  salt : String
  commitment : String
  remainingCards : List String
  deriving DecidableEq, Repr

/-- `revealSalt()`: sets `revealed = true` and returns the salt, commitment
and remaining card names.  (The source performs no check of `revealed`.) -/
def SecureDeck.revealSalt (d : SecureDeck) : RevealData × SecureDeck :=
  (⟨d.salt, d.commitment, d.cards.map Card.toStr⟩, { d with revealed := true })

/-! ## Table engine (src/server/table.js) -/

/-- `GAME_PHASES`. -/
inductive GamePhase where
  | waiting | preflop | flop | turn | river | showdown
  deriving DecidableEq, Repr

/-- The typed error taxonomy; each constructor corresponds to one `throw`
site (the `belowMinRaise` and `invalidBuyIn` payloads mirror the values
interpolated into the message).  `typeError` models a JavaScript
`TypeError` from dereferencing `undefined`/`null` (never thrown
deliberately), and `fuelOut` is an artifact of the bounded model of the
source's unbounded `_advancePhase` recursion (reachable only from states
the action API cannot produce, where JS would overflow the stack). -/
inductive PokerError where
  | invalidBuyIn (minB maxB : ℚ)   -- 'Buy-in must be between … and …'
  | tableFull                      -- 'Table is full'
  | notEnoughPlayers               -- 'Need at least 2 players to start'
  | outOfTurn                      -- 'Not your turn'
  | noActiveHand                   -- 'No active hand'
  | cannotCheck                    -- 'Cannot check, must call or raise'
  | nothingToCall                  -- 'Nothing to call'
  | belowMinRaise (minRaise : ℚ)   -- 'Minimum raise is …'
  | insufficientChips              -- 'Not enough chips'
  | deckEmpty                      -- 'Deck is empty'
  | evalTooFewCards                -- 'Need at least 5 cards to evaluate'
  | typeError
  | fuelOut
  deriving DecidableEq, Repr

/-- `class Player` (table-scoped record; `lastActionTime` is elided as
display-only). -/
structure PlayerRec where
  id : String
  moltbookId : String
  walletAddress : String
  chips : ℚ
  holeCards : List Card
  currentBet : ℚ
  totalBetThisHand : ℚ
  folded : Bool
  allIn : Bool
  isConnected : Bool
  lastAction : Option String
  deriving DecidableEq, Repr

/-- The `Player` constructor. -/
def mkPlayer (id moltbookId walletAddress : String) (buyIn : ℚ) : PlayerRec :=
  ⟨id, moltbookId, walletAddress, buyIn, [], 0, 0, false, false, true, none⟩

/-- `Player.reset()`. -/
def PlayerRec.reset (p : PlayerRec) : PlayerRec :=
  { p with holeCards := [], currentBet := 0, totalBetThisHand := 0,
           folded := false, allIn := false, lastAction := none }

/-- `class Table`.  `handHistory` keeps only the action tags and
`completedHands` only placeholders: both are display-only ring buffers whose
entry payloads no claim depends on. -/
structure Table where
  id : String
  name : String
  maxPlayers : Nat
  smallBlind : ℚ
  bigBlind : ℚ
  minBuyIn : ℚ
  maxBuyIn : ℚ
  rake : ℚ
  rakeMax : ℚ
  players : List (String × PlayerRec)
  seats : List (Option String)
  deck : Option SecureDeck
  communityCards : List Card
  pot : ℚ
  sidePots : List ℚ
  phase : GamePhase
  dealerSeat : Nat
  currentPlayerSeat : Option Nat
  lastRaiserSeat : Option Int
  currentBet : ℚ
  minRaise : ℚ
  handNumber : Nat
  deckCommitment : Option String
  handHistory : List String
  completedHands : List Unit
  deriving DecidableEq, Repr

/-- The `Table` constructor with an empty `config` (all defaults; `0.05`
modelled as `1/20`). -/
def mkTable (id : String) : Table :=
  { id := id, name := "Table " ++ id, maxPlayers := 6,
    smallBlind := 10, bigBlind := 20, minBuyIn := 400, maxBuyIn := 2000,
    rake := 1/20, rakeMax := 100,
    players := [], seats := List.replicate 6 none, deck := none,
    communityCards := [], pot := 0, sidePots := [], phase := .waiting,
    dealerSeat := 0, currentPlayerSeat := none, lastRaiserSeat := none,
    currentBet := 0, minRaise := 20, handNumber := 0, deckCommitment := none,
    handHistory := [], completedHands := [] }

/-- JS `Map.prototype.get`. -/
def jsMapGet (m : List (String × PlayerRec)) (k : String) : Option PlayerRec :=
  (m.find? (·.1 == k)).map (·.2)

/-- JS `Map.prototype.set`: replaces the first entry with the key in place,
appends when absent.  Mutation of a `Player` object held in the map is
modelled as `jsMapSet` with its id. -/
def jsMapSet : List (String × PlayerRec) → String → PlayerRec →
    List (String × PlayerRec)
  | [], k, v => [(k, v)]
  | (k', v') :: rest, k, v =>
      if k' = k then (k, v) :: rest else (k', v') :: jsMapSet rest k v

/-- `this.seats.indexOf(playerId)` (`-1` when absent; `null` seats never
equal a string). -/
def jsSeatIndexOf (seats : List (Option String)) (pid : String) : Int :=
  match seats.findIdx? (· == some pid) with
  | some n => (n : Int)
  | none => -1

/-- `_getActivePlayers()`. -/
def getActivePlayers (t : Table) : List PlayerRec :=
  (t.players.map (·.2)).filter fun p => decide (0 < p.chips) && p.isConnected

/-- `_getPlayersInHand()`. -/
def playersInHand (t : Table) : List PlayerRec :=
  (t.players.map (·.2)).filter fun p => !p.folded && !p.holeCards.isEmpty

/-- `_logAction(action, …)` (payload elided). -/
def logAction (t : Table) (tag : String) : Table :=
  { t with handHistory := t.handHistory ++ [tag] }

/-- `completedHands.unshift(…)` followed by the keep-only-20 trim. -/
def pushCompleted (l : List Unit) : List Unit :=
  let l' := () :: l
  if 20 < l'.length then l'.dropLast else l'

/-- The seat-scanning `while`/`do-while` loops of `_moveDealer`,
`_getSmallBlindSeat` and `_getBigBlindSeat`: first occupied seat at or
after `seat`, wrapping modulo `m`.  The fuel bounds the loop, which in JS
runs forever when no seat is occupied (callers guarantee occupancy). -/
def firstOccupiedFrom (seats : List (Option String)) (m : Nat) :
    Nat → Nat → Nat
  | seat, 0 => seat
  | seat, fuel + 1 =>
      if (seats.getD seat none).isNone then
        firstOccupiedFrom seats m ((seat + 1) % m) fuel
      else seat

/-- `_getSmallBlindSeat()`. -/
def getSmallBlindSeat (t : Table) : Nat :=
  firstOccupiedFrom t.seats t.maxPlayers ((t.dealerSeat + 1) % t.maxPlayers)
    t.maxPlayers

/-- `_getBigBlindSeat()`. -/
def getBigBlindSeat (t : Table) : Nat :=
  firstOccupiedFrom t.seats t.maxPlayers
    ((getSmallBlindSeat t + 1) % t.maxPlayers) t.maxPlayers

/-- `_moveDealer()` (returns the new dealer seat). -/
def moveDealerSeat (t : Table) : Nat :=
  firstOccupiedFrom t.seats t.maxPlayers ((t.dealerSeat + 1) % t.maxPlayers)
    t.maxPlayers

/-- The scanning loop of `_setNextPlayer`: first seat from `seat` onward
(up to `maxPlayers` probes) whose player is neither folded nor all-in.  A
seat id absent from the players map would make JS throw a `TypeError`; it
is modelled as a skip and is unreachable while seats and map agree. -/
def findNextActor (t : Table) : Nat → Nat → Option Nat
  | _, 0 => none
  | seat, fuel + 1 =>
      match t.seats.getD seat none with
      | some pid =>
          match jsMapGet t.players pid with
          | some p =>
              if !p.folded && !p.allIn then some seat
              else findNextActor t ((seat + 1) % t.maxPlayers) fuel
          | none => findNextActor t ((seat + 1) % t.maxPlayers) fuel
      | none => findNextActor t ((seat + 1) % t.maxPlayers) fuel

/-- `_setNextPlayer(afterSeat)`. -/
def setNextPlayer (t : Table) (afterSeat : Nat) : Table :=
  { t with currentPlayerSeat :=
      findNextActor t ((afterSeat + 1) % t.maxPlayers) t.maxPlayers }

/-- `_validateAction(playerId)`: the `seat !== this.currentPlayerSeat`
comparison is false for every number against `null`, and `-1` (id not
seated) never equals a seat number. -/
def validateAction (t : Table) (pid : String) : Option PokerError :=
  if t.phase = .waiting ∨ t.phase = .showdown then some .noActiveHand
  else
    match t.currentPlayerSeat with
    | some c =>
        if jsSeatIndexOf t.seats pid ≠ (c : Int) then some .outOfTurn else none
    | none => some .outOfTurn

/-- `this.deck.deal()` from a table: a `null` deck raises a `TypeError`,
an empty one `'Deck is empty'`. -/
def dealFromDeck (t : Table) : Except PokerError (Card × Table) :=
  match t.deck with
  | none => .error .typeError
  | some d =>
      match d.dealOne with
      | none => .error .deckEmpty
      | some (c, d') => .ok (c, { t with deck := some d' })

/-- `n` consecutive `this.deck.deal()` calls (used for the flop); on error
the deck keeps the cards already consumed, and no dealt card is stored. -/
def dealN (t : Table) : Nat → Option PokerError × Table × List Card
  | 0 => (none, t, [])
  | n + 1 =>
      match dealFromDeck t with
      | .error e => (some e, t, [])
      | .ok (c, t1) =>
          let (oe, t2, cs) := dealN t1 n
          (oe, t2, c :: cs)

/-- One entry of `_showdown`'s `results` array (`handName` elided as
display-only). -/
structure ShowEntry where
  player : PlayerRec
  hand : HandResult
  deriving DecidableEq, Repr

/-- The `results.map(...)` loop of `_showdown`; `none` models the evaluator
throw for fewer than five cards. -/
def evalResults (community : List Card) :
    List PlayerRec → Option (List ShowEntry)
  | [] => some []
  | p :: rest =>
      match evaluateHand (p.holeCards ++ community) with
      | none => none
      | some h =>
          match evalResults community rest with
          | none => none
          | some es => some (⟨p, h⟩ :: es)

/-- `results.sort((a, b) => compareHands(b.hand, a.hand))`: `a` may precede
`b` when the comparator is `≤ 0` (strongest hand first).  The `none`
(`NaN`) case never arises between evaluator results. -/
def showBefore (a b : ShowEntry) : Prop :=
  match compareHands b.hand a.hand with
  | some v => v ≤ 0
  | none => True

instance : DecidableRel showBefore := fun a b => by
  unfold showBefore
  exact match compareHands b.hand a.hand with
  | some v => Int.decLe v 0
  | none => inferInstanceAs (Decidable True)

/-- The winner-collection loop: `results[0]` plus the following entries
whose hand compares equal, stopping at the first strict difference.  (On an
empty results array JS would throw reading `results[0]`; unreachable since
`_showdown` runs with at least one player in hand.) -/
def takeTiedWinners : List ShowEntry → List ShowEntry
  | [] => []
  | r0 :: rest =>
      r0 :: rest.takeWhile fun r => compareHands r.hand r0.hand == some 0

/-- `winner.chips += amt` for a player object held in the map. -/
def creditWinner (players : List (String × PlayerRec)) (wid : String)
    (amt : ℚ) : List (String × PlayerRec) :=
  match jsMapGet players wid with
  | some p => jsMapSet players wid { p with chips := p.chips + amt }
  | none => players

/-- The showdown summary in `_showdown`'s return value. -/
structure ShowSummary where
  winners : List String
  pot : ℚ
  rake : ℚ
  winAmount : ℚ
  deriving DecidableEq, Repr

/-- `_showdown()`. -/
def showdown (t0 : Table) : Option PokerError × Table × Option ShowSummary :=
  let t := { t0 with phase := .showdown }
  match evalResults t.communityCards (playersInHand t) with
  | none => (some .evalTooFewCards, t, none)
  | some results =>
      let sorted := List.insertionSort showBefore results
      let winners := takeTiedWinners sorted
      let rake := min (t.pot * t.rake) t.rakeMax
      let potAfterRake := t.pot - rake
      let winAmount : ℚ := (⌊potAfterRake / (winners.length : ℚ)⌋ : ℤ)
      let t1 := { t with players :=
        (winners.foldl
          (fun ps (w : ShowEntry) => creditWinner ps w.player.id winAmount)
          t.players) }
      match t1.deck with
      | none => (some .typeError, t1, none)
      | some d =>
          let t2 := { t1 with deck := some (d.revealSalt).2 }
          let t3 := logAction t2 "SHOWDOWN"
          let t4 := { t3 with completedHands := pushCompleted t3.completedHands }
          (none, t4,
            some ⟨winners.map fun (w : ShowEntry) => w.player.id,
                  t.pot, rake, winAmount⟩)

/-- `_awardPot(winner)` (uncontested win).  Note: the pot field is not
reset here; it is cleared only by the next `startHand()`. -/
def awardPot (t : Table) (winner : PlayerRec) : Table :=
  let rake := min (t.pot * t.rake) t.rakeMax
  let winAmount := t.pot - rake
  let t1 := { t with players := creditWinner t.players winner.id winAmount }
  let t2 := logAction t1 "WIN_UNCONTESTED"
  let t3 := { t2 with completedHands := pushCompleted t2.completedHands }
  { t3 with phase := .showdown }

/-- `_isBettingComplete()`. -/
def isBettingComplete (t : Table) : Bool :=
  (playersInHand t).all fun p =>
    if !p.allIn && decide (p.currentBet < t.currentBet) then false
    else if !p.allIn && p.lastAction == none && t.phase == .preflop then
      if t.seats.getD (getBigBlindSeat t) none == some p.id &&
          p.currentBet == t.bigBlind then false
      else true
    else true

/-- The per-round reset at the top of `_advancePhase`. -/
def resetBets (t : Table) : Table :=
  { t with
      players := (t.players.map fun kv =>
        (kv.1, { kv.2 with currentBet := 0, lastAction := none })),
      currentBet := 0, minRaise := t.bigBlind }

/-- The `switch (this.phase)` community-card dealing of `_advancePhase`
(the RIVER case, which runs the showdown instead, is handled by the
caller; WAITING/SHOWDOWN match no case). -/
def advancePhaseDeal (t : Table) : Option PokerError × Table :=
  if t.phase = .preflop then
    match dealN t 3 with
    | (some e, t1, _) => (some e, t1)
    | (none, t1, cs) =>
        (none, logAction
          { t1 with communityCards := cs, phase := .flop } "FLOP")
  else if t.phase = .flop then
    match dealFromDeck t with
    | .error e => (some e, t)
    | .ok (c, t1) =>
        (none, logAction
          { t1 with communityCards := t1.communityCards ++ [c],
                    phase := .turn } "TURN")
  else if t.phase = .turn then
    match dealFromDeck t with
    | .error e => (some e, t)
    | .ok (c, t1) =>
        (none, logAction
          { t1 with communityCards := t1.communityCards ++ [c],
                    phase := .river } "RIVER")
  else (none, t)

/-- `_advancePhase()`.  The fuel bounds the source's recursion, which
strictly advances the phase except from `waiting`/`showdown` (where JS
would recurse forever when at most one player can act — unreachable through
the action API, which rejects those phases). -/
def advancePhase : Nat → Table → Option PokerError × Table × Option ShowSummary
  | 0, t => (some .fuelOut, t, none)
  | fuel + 1, t0 =>
      let t := resetBets t0
      if t.phase = .river then showdown t
      else
        match advancePhaseDeal t with
        | (some e, t1) => (some e, t1, none)
        | (none, t1) =>
            let t2 := setNextPlayer t1 t1.dealerSeat
            let canAct := (playersInHand t2).filter fun p => !p.allIn
            if canAct.length ≤ 1 then advancePhase fuel t2
            else (none, t2, none)

/-- `_advanceGame()`.  `null + 1` in JS makes a `null` current seat behave
like seat `0` in `_setNextPlayer(this.currentPlayerSeat)`. -/
def advanceGame (t : Table) : Option PokerError × Table × Option ShowSummary :=
  match playersInHand t with
  | [p] => (none, awardPot t p, none)
  | _ =>
      if isBettingComplete t then advancePhase 5 t
      else (none, setNextPlayer t (t.currentPlayerSeat.getD 0), none)

/-- Drops the showdown summary (the snapshot callers receive is not part of
the table state). -/
def dropSummary :
    Option PokerError × Table × Option ShowSummary → Option PokerError × Table
  | (oe, t, _) => (oe, t)

/-- `fold(playerId)`. -/
def Table.fold (t : Table) (pid : String) : Option PokerError × Table :=
  match validateAction t pid with
  | some e => (some e, t)
  | none =>
      match jsMapGet t.players pid with
      | none => (some .typeError, t)
      | some p =>
          let t1 := { t with players := (jsMapSet t.players pid
            { p with folded := true, lastAction := some "fold" }) }
          dropSummary (advanceGame (logAction t1 "FOLD"))

/-- `check(playerId)`. -/
def Table.check (t : Table) (pid : String) : Option PokerError × Table :=
  match validateAction t pid with
  | some e => (some e, t)
  | none =>
      match jsMapGet t.players pid with
      | none => (some .typeError, t)
      | some p =>
          if p.currentBet < t.currentBet then (some .cannotCheck, t)
          else
            let t1 := { t with players := (jsMapSet t.players pid
              { p with lastAction := some "check" }) }
            dropSummary (advanceGame (logAction t1 "CHECK"))

/-- `call(playerId)`. -/
def Table.call (t : Table) (pid : String) : Option PokerError × Table :=
  match validateAction t pid with
  | some e => (some e, t)
  | none =>
      match jsMapGet t.players pid with
      | none => (some .typeError, t)
      | some p =>
          let toCall := t.currentBet - p.currentBet
          if toCall ≤ 0 then (some .nothingToCall, t)
          else
            let actualCall := min toCall p.chips
            let p1 := { p with
              chips := p.chips - actualCall,
              currentBet := p.currentBet + actualCall,
              totalBetThisHand := p.totalBetThisHand + actualCall }
            let p2 := if p1.chips = (0 : ℚ) then { p1 with allIn := true } else p1
            let t1 := { t with
              players := (jsMapSet t.players pid
                { p2 with lastAction := some "call" }),
              pot := t.pot + actualCall }
            dropSummary (advanceGame (logAction t1 "CALL"))

/-- `raise(playerId, amount)`. -/
def Table.raise (t : Table) (pid : String) (amount : ℚ) :
    Option PokerError × Table :=
  match validateAction t pid with
  | some e => (some e, t)
  | none =>
      match jsMapGet t.players pid with
      | none => (some .typeError, t)
      | some p =>
          let toCall := t.currentBet - p.currentBet
          let raiseAmount := amount - toCall
          if raiseAmount < t.minRaise ∧ amount < p.chips then
            (some (.belowMinRaise t.minRaise), t)
          else if p.chips < amount then (some .insufficientChips, t)
          else
            let p1 := { p with
              chips := p.chips - amount,
              currentBet := p.currentBet + amount,
              totalBetThisHand := p.totalBetThisHand + amount }
            let p2 := if p1.chips = (0 : ℚ) then { p1 with allIn := true } else p1
            let t1 := { t with
              players := (jsMapSet t.players pid
                { p2 with lastAction := some "raise" }),
              pot := t.pot + amount,
              currentBet := p.currentBet + amount,
              minRaise := max t.minRaise raiseAmount,
              lastRaiserSeat := some (jsSeatIndexOf t.seats pid) }
            dropSummary (advanceGame (logAction t1 "RAISE"))

/-- `allIn(playerId)`: reads the stack before any validation (a missing id
makes JS dereference `undefined`). -/
def Table.allIn (t : Table) (pid : String) : Option PokerError × Table :=
  match jsMapGet t.players pid with
  | none => (some .typeError, t)
  | some p => t.raise pid p.chips

/-- `addPlayer(moltbookId, walletAddress, buyIn, preferredSeat)`;
`Date.now()` is the explicit parameter `now`. -/
def Table.addPlayer (t : Table) (moltbookId walletAddress : String)
    (buyIn : ℚ) (preferredSeat : Option Nat) (now : Nat) :
    Option PokerError × Table :=
  if buyIn < t.minBuyIn ∨ t.maxBuyIn < buyIn then
    (some (.invalidBuyIn t.minBuyIn t.maxBuyIn), t)
  else
    -- keep the preferred seat only when it is in range and empty
    -- (`seat === null || this.seats[seat] !== null`)
    let keepPreferred : Bool :=
      match preferredSeat with
      | some s => t.seats.get? s == some none
      | none => false
    match if keepPreferred then preferredSeat
          else t.seats.findIdx? (·.isNone) with
    | none => (some .tableFull, t)
    | some seat =>
        let pid := moltbookId ++ "-" ++ toString now
        let player := mkPlayer pid moltbookId walletAddress buyIn
        (none, { t with players := jsMapSet t.players pid player,
                        seats := t.seats.set seat (some pid) })

/-- `_postBlinds()`.  Amounts are read before either mutation; the two
posters are then mutated sequentially through the map (which also handles
the impossible aliasing case faithfully). -/
def postBlinds (t : Table) : Option PokerError × Table :=
  let sbSeat := getSmallBlindSeat t
  let bbSeat := getBigBlindSeat t
  match (t.seats.getD sbSeat none).bind (jsMapGet t.players),
        (t.seats.getD bbSeat none).bind (jsMapGet t.players) with
  | some sbP, some bbP =>
      let sbPid := sbP.id
      let bbPid := bbP.id
      let sbAmount := min t.smallBlind sbP.chips
      let bbAmount := min t.bigBlind bbP.chips
      let ps1 := jsMapSet t.players sbPid
        { sbP with chips := sbP.chips - sbAmount, currentBet := sbAmount,
                   totalBetThisHand := sbAmount }
      let ps2 :=
        match jsMapGet ps1 bbPid with
        | some bbP' => jsMapSet ps1 bbPid
            { bbP' with chips := bbP'.chips - bbAmount, currentBet := bbAmount,
                        totalBetThisHand := bbAmount }
        | none => ps1
      let ps3 :=
        match jsMapGet ps2 sbPid with
        | some q => if q.chips = 0 then jsMapSet ps2 sbPid { q with allIn := true }
                    else ps2
        | none => ps2
      let ps4 :=
        match jsMapGet ps3 bbPid with
        | some q => if q.chips = 0 then jsMapSet ps3 bbPid { q with allIn := true }
                    else ps3
        | none => ps3
      (none, logAction { t with players := ps4,
                                pot := t.pot + sbAmount + bbAmount } "BLINDS")
  | _, _ => (some .typeError, t)

/-- The loop of `_dealHoleCards()` over the seat array. -/
def dealHoleCardsAux : List (Option String) → Table → Option PokerError × Table
  | [], t => (none, t)
  | none :: rest, t => dealHoleCardsAux rest t
  | some pid :: rest, t =>
      match jsMapGet t.players pid with
      | none => (some .typeError, t)
      | some p =>
          if 0 < p.chips then
            match dealFromDeck t with
            | .error e => (some e, t)
            | .ok (c1, t1) =>
                match dealFromDeck t1 with
                | .error e => (some e, t1)
                | .ok (c2, t2) =>
                    dealHoleCardsAux rest { t2 with players :=
                      (jsMapSet t2.players pid
                        { p with holeCards := [c1, c2] }) }
          else dealHoleCardsAux rest t

/-- `_dealHoleCards()`. -/
def dealHoleCards (t : Table) : Option PokerError × Table :=
  dealHoleCardsAux t.seats t

/-- `startHand()`.  The fresh `new SecureDeck()` is modelled by passing the
CSPRNG outputs (post-shuffle ordering and salt) and the hash function. -/
def Table.startHand (hashFn : String → String) (t : Table)
    (shuffled : List Card) (salt : String) : Option PokerError × Table :=
  if (getActivePlayers t).length < 2 then (some .notEnoughPlayers, t)
  else
    let d := mkSecureDeck hashFn shuffled salt
    let t1 := { t with
      handNumber := t.handNumber + 1,
      deck := some d,
      deckCommitment := some d.commitment,
      communityCards := [], pot := 0, sidePots := [],
      phase := .preflop, currentBet := t.bigBlind, minRaise := t.bigBlind,
      handHistory := [] }
    let t2 := { t1 with players :=
      (t1.players.map fun (kv : String × PlayerRec) => (kv.1, kv.2.reset)) }
    let t3 := { t2 with dealerSeat := moveDealerSeat t2 }
    match postBlinds t3 with
    | (some e, t4) => (some e, t4)
    | (none, t4) =>
        match dealHoleCards t4 with
        | (some e, t5) => (some e, t5)
        | (none, t5) =>
            let t6 := setNextPlayer t5 (getBigBlindSeat t5)
            (none, logAction t6 "HAND_START")

/-- `sum(player.chips)` over the table's player map. -/
def playersChipSum (t : Table) : ℚ :=
  (t.players.map fun kv => kv.2.chips).sum

/-- The conserved quantity of the spec: `sum(player.chips) + pot`. -/
def chipSum (t : Table) : ℚ := playersChipSum t + t.pot

/-! ## Concrete states used by witnesses and counterexamples

The tables below are mid-hand snapshots reachable through the public API;
the comments sketch a play history producing each one. -/

/-- A seated mid-hand player record. -/
def testPlayer (id : String) (chips bet : ℚ) (cards : List Card) : PlayerRec :=
  { id := id, moltbookId := id, walletAddress := "w", chips := chips,
    holeCards := cards, currentBet := bet, totalBetThisHand := bet,
    folded := false, allIn := false, isConnected := true, lastAction := none }

/-- Hole cards used in the test states. -/
def holeA : List Card := [mkCard "7" "H", mkCard "2" "D"]

/-- Hole cards used in the test states. -/
def holeB : List Card := [mkCard "8" "C", mkCard "4" "S"]

/-- Heads-up preflop: A (seat 0) posted the small blind 10, B (seat 1) the
big blind 20 from 2000 buy-ins, pot 30, A to act.  (Produced by two
`addPlayer` calls and `startHand` on a default table with dealer moving to
seat 1.) -/
def foldAwardTable : Table :=
  { mkTable "t" with
      players := [("A", testPlayer "A" 1990 10 holeA),
                  ("B", testPlayer "B" 1980 20 holeB)],
      seats := [some "A", some "B", none, none, none, none],
      phase := .preflop, currentPlayerSeat := some 0,
      pot := 30, currentBet := 20, dealerSeat := 1 }

/-- Three players on the flop: A (seat 0) has raised to 100 this round,
B (seat 1, stack 30 after losing earlier hands and calling 20 preflop) is
to act, C (seat 2) has yet to act.  Pot 160 (60 preflop + A's 100). -/
def shortAllInTable : Table :=
  { mkTable "t" with
      maxPlayers := 3,
      players :=
        [("A", { testPlayer "A" 1880 100 holeA with lastAction := some "raise" }),
         ("B", testPlayer "B" 30 0 holeB),
         ("C", testPlayer "C" 1980 0 [mkCard "9" "H", mkCard "9" "D"])],
      seats := [some "A", some "B", some "C"],
      phase := .flop, currentPlayerSeat := some 1,
      pot := 160, currentBet := 100, minRaise := 20, dealerSeat := 0,
      lastRaiserSeat := some 0,
      communityCards := [mkCard "K" "D", mkCard "Q" "C", mkCard "6" "S"] }

/-- A board that is itself a royal flush, so both remaining players tie. -/
def royalBoard : List Card :=
  [mkCard "A" "S", mkCard "K" "S", mkCard "Q" "S", mkCard "J" "S",
   mkCard "10" "S"]

/-- The deck remnant at river time (contents irrelevant to the award). -/
def riverDeck : SecureDeck :=
  { cards := [mkCard "2" "C"], salt := "s", commitment := "c",
    revealed := false }

/-- Heads-up at the river with betting closed: each player contributed 30
(blinds plus preflop call), pot 60, board `royalBoard`, so the two players
split the pot. -/
def splitPotTable : Table :=
  { mkTable "t" with
      players :=
        [("A", testPlayer "A" 370 0 [mkCard "2" "H", mkCard "3" "H"]),
         ("B", testPlayer "B" 370 0 [mkCard "2" "D", mkCard "3" "D"])],
      seats := [some "A", some "B", none, none, none, none],
      phase := .river, currentPlayerSeat := some 0,
      pot := 60, currentBet := 0, dealerSeat := 1,
      deck := some riverDeck, communityCards := royalBoard }

/-- The deck state after dealing two cards from an unshuffled fresh deck
with salt `"salt0"` and the identity standing in for the hash. -/
def dealtTwiceDeck : SecureDeck :=
  { cards := buildDeck.dropLast.dropLast, salt := "salt0",
    commitment := deckString buildDeck ++ "salt0", revealed := false }

/-- Pair of aces (ace-king-queen-nine kickers). -/
def c4A : List Card :=
  [mkCard "A" "S", mkCard "A" "H", mkCard "K" "D", mkCard "Q" "C",
   mkCard "9" "S"]

/-- Pair of kings. -/
def c4B : List Card :=
  [mkCard "K" "S", mkCard "K" "H", mkCard "Q" "D", mkCard "J" "C",
   mkCard "9" "H"]

/-- Ten-high card hand. -/
def c4C : List Card :=
  [mkCard "2" "S", mkCard "4" "H", mkCard "6" "D", mkCard "8" "C",
   mkCard "10" "S"]

/-- A wheel straight flush in hearts. -/
def wheelFlushHand : List Card :=
  [mkCard "A" "H", mkCard "2" "H", mkCard "3" "H", mkCard "4" "H",
   mkCard "5" "H"]

/-- A wheel straight with mixed suits. -/
def wheelHand : List Card :=
  [mkCard "A" "S", mkCard "2" "H", mkCard "3" "S", mkCard "4" "S",
   mkCard "5" "S"]

/-- The six-high straight (the straight just above the wheel). -/
def sixHighStraight : List Card :=
  [mkCard "2" "S", mkCard "3" "H", mkCard "4" "D", mkCard "5" "C",
   mkCard "6" "S"]

/-- The kicker-array length produced by each ranking on a 5-card input. -/
def kickerLen (r : Int) : Nat :=
  if r = 5 then 1
  else if r = 8 ∨ r = 7 then 2
  else if r = 4 ∨ r = 3 then 3
  else if r = 2 then 4
  else 5

/-- Well-formedness of an evaluator result: the kicker length is the one
its ranking dictates (every output of `evaluate5Cards` on 5 cards, and
hence of `evaluateHand`, satisfies it). -/
def resWF (r : HandResult) : Prop := r.kickers.length = kickerLen r.ranking

/-- The validation errors the spec's failure-semantics sentence enumerates
(`InvalidBuyIn`, `TableFull`, `NotEnoughPlayers`, `OutOfTurn`,
`NoActiveHand`, `CannotCheck`, `NothingToCall`, `BelowMinRaise`,
`InsufficientChips`); system throws (`TypeError`, deck exhaustion, the
evaluator's arity throw, loop fuel) are not validation errors. -/
def listedErr : PokerError → Bool
  | .invalidBuyIn _ _ => true
  | .tableFull => true
  | .notEnoughPlayers => true
  | .outOfTurn => true
  | .noActiveHand => true
  | .cannotCheck => true
  | .nothingToCall => true
  | .belowMinRaise _ => true
  | .insufficientChips => true
  | .deckEmpty => false
  | .evalTooFewCards => false
  | .typeError => false
  | .fuelOut => false

/-! ## Deck lemmas -/

/-- Dealing preserves the salt and commitment, and the original ordering is
the remaining cards followed by the dealt cards in reverse deal order
(`deal()` pops from the end of the array). -/
theorem SecureDeck.dealMany_spec :
    ∀ (n : Nat) (d : SecureDeck) (dealt : List Card) (d' : SecureDeck),
      d.dealMany n = some (dealt, d') →
      d'.cards ++ dealt.reverse = d.cards ∧ d'.salt = d.salt ∧
        d'.commitment = d.commitment := by
  intro n
  induction n with
  | zero =>
    intro d dealt d' h
    simp only [SecureDeck.dealMany, Option.some.injEq, Prod.mk.injEq] at h
    obtain ⟨h1, h2⟩ := h
    subst h1; subst h2
    simp
  | succ n ih =>
    intro d dealt d' h
    unfold SecureDeck.dealMany at h
    split at h
    next => exact absurd h (by simp)
    next c d1 hone =>
      split at h
      next => exact absurd h (by simp)
      next rest d2 hrec =>
        simp only [Option.some.injEq, Prod.mk.injEq] at h
        obtain ⟨hdealt, hd2⟩ := h
        subst hdealt; subst hd2
        obtain ⟨hcards, hsalt, hcommit⟩ := ih d1 rest d2 hrec
        unfold SecureDeck.dealOne at hone
        split at hone
        next => exact absurd hone (by simp)
        next c' hlast =>
          simp only [Option.some.injEq, Prod.mk.injEq] at hone
          obtain ⟨hc, hd1⟩ := hone
          subst hc
          refine ⟨?_, ?_, ?_⟩
          · have hdrop : d.cards.dropLast ++ [c'] = d.cards :=
              List.dropLast_append_getLast? c' hlast
            calc d2.cards ++ (c' :: rest).reverse
                = (d2.cards ++ rest.reverse) ++ [c'] := by
                  simp [List.reverse_cons, List.append_assoc]
              _ = d1.cards ++ [c'] := by rw [hcards]
              _ = d.cards.dropLast ++ [c'] := by rw [← hd1]
              _ = d.cards := hdrop
          · rw [hsalt, ← hd1]
          · rw [hcommit, ← hd1]

/-! ## C2: the deck commitment and its verifiability -/

/-- C2.  The commitment stored at creation is the hash of the comma-joined
full 52-card ordering concatenated with the salt, and after any sequence of
`deal()` calls the data returned by `revealSalt()` (salt, commitment,
remaining cards) together with the dealt cards reconstructs the original
ordering (remaining cards followed by the dealt cards, most recent first)
and re-derives the commitment. -/
theorem deck_commitment_verifiable (hashFn : String → String)
    (shuffled : List Card) (salt : String) (n : Nat) (dealt : List Card)
    (d' : SecureDeck) (_hperm : shuffled.Perm buildDeck)
    (hdeal : (mkSecureDeck hashFn shuffled salt).dealMany n =
      some (dealt, d')) :
    (mkSecureDeck hashFn shuffled salt).commitment =
      hashFn (deckString shuffled ++ salt) ∧
    (d'.revealSalt).1.salt = salt ∧
    (d'.revealSalt).1.commitment =
      (mkSecureDeck hashFn shuffled salt).commitment ∧
    hashFn (String.intercalate ","
        ((d'.revealSalt).1.remainingCards ++ (dealt.map Card.toStr).reverse) ++
        (d'.revealSalt).1.salt) =
      (d'.revealSalt).1.commitment := by
  obtain ⟨hcards, hsalt, hcommit⟩ :=
    SecureDeck.dealMany_spec n _ dealt d' hdeal
  refine ⟨rfl, hsalt, hcommit, ?_⟩
  have hrecon : d'.cards.map Card.toStr ++ (dealt.map Card.toStr).reverse =
      shuffled.map Card.toStr := by
    rw [← List.map_reverse, ← List.map_append, hcards]; rfl
  show hashFn (String.intercalate ","
      (d'.cards.map Card.toStr ++ (dealt.map Card.toStr).reverse) ++ d'.salt) =
    d'.commitment
  rw [hrecon, hsalt, hcommit]
  rfl

/-- C2 witness: a fresh unshuffled deck with two cards dealt; the
reconstruction equation is obtained from `deck_commitment_verifiable`. -/
theorem deck_commitment_verifiable_witness :
    buildDeck.Perm buildDeck ∧
    (mkSecureDeck (fun s => s) buildDeck "salt0").dealMany 2 =
      some ([mkCard "A" "C", mkCard "K" "C"], dealtTwiceDeck) ∧
    (fun s => s) (String.intercalate ","
        ((dealtTwiceDeck.revealSalt).1.remainingCards ++
          ([mkCard "A" "C", mkCard "K" "C"].map Card.toStr).reverse) ++
        (dealtTwiceDeck.revealSalt).1.salt) =
      (dealtTwiceDeck.revealSalt).1.commitment :=
  ⟨List.Perm.refl _, by decide,
    (deck_commitment_verifiable (fun s => s) buildDeck "salt0" 2
      [mkCard "A" "C", mkCard "K" "C"] dealtTwiceDeck (List.Perm.refl _)
      (by decide)).2.2.2⟩

/-! ## C9: behaviour of revealSalt -/

/-- C9 counterexample: a second `revealSalt()` call is not rejected — it
returns exactly the same data as the first call (the function
unconditionally returns after setting the `revealed` flag). -/
theorem revealSalt_second_call_returns_again :
    (((mkSecureDeck (fun s => s) buildDeck "salt1").revealSalt).2.revealSalt).1 =
      ((mkSecureDeck (fun s => s) buildDeck "salt1").revealSalt).1 := by
  decide

/-- C9 (amended).  `revealSalt()` returns the salt, the original commitment
and the still-undealt card names and sets the `revealed` flag, but nothing
checks that flag: it may be called any number of times, every call
returning the same data. -/
theorem revealSalt_spec (d : SecureDeck) :
    (d.revealSalt).1 = ⟨d.salt, d.commitment, d.cards.map Card.toStr⟩ ∧
    (d.revealSalt).2.revealed = true ∧
    (((d.revealSalt).2).revealSalt).1 = (d.revealSalt).1 := by
  refine ⟨rfl, rfl, rfl⟩

/-! ## Evaluator lemmas -/

/-- Every member of `getCombinations arr k` (for `k ≠ 0`) has length `k`. -/
theorem getCombinations_length :
    ∀ (arr : List Card) (k : Nat), k ≠ 0 →
      ∀ l ∈ getCombinations arr k, l.length = k := by
  intro arr
  induction arr with
  | nil =>
    intro k hk l hl
    match k, hk with
    | 1, _ => simp [getCombinations] at hl
    | (n + 2), _ => simp [getCombinations] at hl
  | cons el rest ih =>
    intro k hk l hl
    match k, hk with
    | 1, _ =>
      simp only [getCombinations, List.mem_map] at hl
      obtain ⟨x, _, rfl⟩ := hl
      rfl
    | (s + 2), _ =>
      simp only [getCombinations, List.mem_append, List.mem_map] at hl
      rcases hl with ⟨combo, hc, rfl⟩ | hr
      · have := ih (s + 1) (by omega) combo hc
        simp [this]
      · exact ih (s + 2) (by omega) l hr

/-- `bumpCount` adds exactly one to the total multiplicity. -/
theorem bumpCount_sum (rc : List (Int × Nat)) (r : Int) :
    ((bumpCount rc r).map (·.2)).sum = ((rc.map (·.2)).sum) + 1 := by
  induction rc with
  | nil => simp [bumpCount]
  | cons p rest ih =>
    obtain ⟨k, c⟩ := p
    by_cases h : k = r
    · simp [bumpCount, h]; omega
    · simp [bumpCount, h, ih]; omega

/-- `bumpCount` keeps every multiplicity positive. -/
theorem bumpCount_pos (rc : List (Int × Nat)) (r : Int)
    (h : ∀ p ∈ rc, 1 ≤ p.2) : ∀ p ∈ bumpCount rc r, 1 ≤ p.2 := by
  induction rc with
  | nil => intro p hp; simp [bumpCount] at hp; simp [hp]
  | cons q rest ih =>
    obtain ⟨k, c⟩ := q
    intro p hp
    by_cases hk : k = r
    · simp only [bumpCount, if_pos hk, List.mem_cons] at hp
      rcases hp with rfl | hp
      · have := h (k, c) (by simp)
        exact Nat.le_succ_of_le this
      · exact h p (List.mem_cons_of_mem _ hp)
    · simp only [bumpCount, if_neg hk, List.mem_cons] at hp
      rcases hp with rfl | hp
      · exact h (k, c) (by simp)
      · exact ih (fun q hq => h q (List.mem_cons_of_mem _ hq)) p hp

/-- The multiplicities recorded by `countRanks` sum to the number of
ranks. -/
theorem countRanks_sum (ranks : List Int) :
    (((countRanks ranks).map (·.2)).sum) = ranks.length := by
  suffices h : ∀ acc : List (Int × Nat),
      (((ranks.foldl bumpCount acc).map (·.2)).sum) =
        ((acc.map (·.2)).sum) + ranks.length by
    simpa using h []
  induction ranks with
  | nil => intro acc; simp
  | cons r rest ih =>
    intro acc
    simp only [List.foldl_cons, ih (bumpCount acc r), bumpCount_sum,
      List.length_cons]
    omega

/-- Every multiplicity recorded by `countRanks` is positive. -/
theorem countRanks_pos (ranks : List Int) :
    ∀ p ∈ countRanks ranks, 1 ≤ p.2 := by
  suffices h : ∀ acc : List (Int × Nat), (∀ p ∈ acc, 1 ≤ p.2) →
      ∀ p ∈ ranks.foldl bumpCount acc, 1 ≤ p.2 by
    exact h [] (by simp)
  induction ranks with
  | nil => intro acc hacc; simpa using hacc
  | cons r rest ih =>
    intro acc hacc
    exact ih (bumpCount acc r) (bumpCount_pos acc r hacc)

/-- A list of positive naturals is no longer than its sum. -/
theorem length_le_sum_of_pos :
    ∀ l : List Nat, (∀ x ∈ l, 1 ≤ x) → l.length ≤ l.sum := by
  intro l
  induction l with
  | nil => simp
  | cons a t ih =>
    intro h
    have ha := h a (by simp)
    have := ih fun x hx => h x (List.mem_cons_of_mem _ hx)
    simp only [List.length_cons, List.sum_cons]
    omega

/-- A list of naturals that are all exactly 1 sums to its length. -/
theorem sum_eq_length_of_all_one :
    ∀ l : List Nat, (∀ x ∈ l, x = 1) → l.sum = l.length := by
  intro l
  induction l with
  | nil => simp
  | cons a t ih =>
    intro h
    have ha := h a (by simp)
    have := ih fun x hx => h x (List.mem_cons_of_mem _ hx)
    simp only [List.sum_cons, List.length_cons]
    omega

/-- Multiplicity-list shape: head 4, positive entries, total 5 forces
`[4, 1]`. -/
theorem shape_four (l : List Nat) (hpos : ∀ x ∈ l, 1 ≤ x)
    (hsum : l.sum = 5) (hhead : l.headI = 4) : l.length = 2 := by
  cases l with
  | nil => simp at hhead
  | cons a t =>
    simp only [List.headI] at hhead
    subst hhead
    simp only [List.sum_cons] at hsum
    have htpos : ∀ x ∈ t, 1 ≤ x := fun x hx => hpos x (List.mem_cons_of_mem _ hx)
    have hle := length_le_sum_of_pos t htpos
    have hne : t ≠ [] := by
      intro h; subst h; simp at hsum
    have := List.length_pos.mpr hne
    simp only [List.length_cons]
    omega

/-- Multiplicity-list shape: head 3 and second 2, positive entries, total 5
forces `[3, 2]`. -/
theorem shape_fullhouse (l : List Nat) (hpos : ∀ x ∈ l, 1 ≤ x)
    (hsum : l.sum = 5) (hhead : l.headI = 3) (hsecond : l.getD 1 0 = 2) :
    l.length = 2 := by
  cases l with
  | nil => simp at hhead
  | cons a t =>
    simp only [List.headI] at hhead
    subst hhead
    cases t with
    | nil => simp at hsecond
    | cons b t2 =>
      simp only [List.getD, List.get?_eq_getElem?] at hsecond
      have hb : b = 2 := by simpa using hsecond
      subst hb
      simp only [List.sum_cons] at hsum
      have h2 : ∀ x ∈ t2, 1 ≤ x := fun x hx =>
        hpos x (List.mem_cons_of_mem _ (List.mem_cons_of_mem _ hx))
      have hle := length_le_sum_of_pos t2 h2
      simp only [List.length_cons]
      omega

/-- Multiplicity-list shape: head 3, second not 2, positive entries, total 5
forces `[3, 1, 1]`. -/
theorem shape_trips (l : List Nat) (hpos : ∀ x ∈ l, 1 ≤ x)
    (hsum : l.sum = 5) (hhead : l.headI = 3) (hsecond : l.getD 1 0 ≠ 2) :
    l.length = 3 := by
  cases l with
  | nil => simp at hhead
  | cons a t =>
    simp only [List.headI] at hhead
    subst hhead
    cases t with
    | nil => simp at hsum
    | cons b t2 =>
      have hb2 : b ≠ 2 := by
        intro h; subst h; simp at hsecond
      have hbpos : 1 ≤ b := hpos b (by simp)
      simp only [List.sum_cons] at hsum
      have h2 : ∀ x ∈ t2, 1 ≤ x := fun x hx =>
        hpos x (List.mem_cons_of_mem _ (List.mem_cons_of_mem _ hx))
      have hle := length_le_sum_of_pos t2 h2
      have hb1 : b = 1 := by omega
      subst hb1
      have hne : t2 ≠ [] := by
        intro h; subst h; simp at hsum
      have := List.length_pos.mpr hne
      simp only [List.length_cons]
      omega

/-- Multiplicity-list shape: head 2 and second 2, positive entries, total 5
forces `[2, 2, 1]`. -/
theorem shape_twopair (l : List Nat) (hpos : ∀ x ∈ l, 1 ≤ x)
    (hsum : l.sum = 5) (hhead : l.headI = 2) (hsecond : l.getD 1 0 = 2) :
    l.length = 3 := by
  cases l with
  | nil => simp at hhead
  | cons a t =>
    simp only [List.headI] at hhead
    subst hhead
    cases t with
    | nil => simp at hsecond
    | cons b t2 =>
      simp only [List.getD, List.get?_eq_getElem?] at hsecond
      have hb : b = 2 := by simpa using hsecond
      subst hb
      simp only [List.sum_cons] at hsum
      have h2 : ∀ x ∈ t2, 1 ≤ x := fun x hx =>
        hpos x (List.mem_cons_of_mem _ (List.mem_cons_of_mem _ hx))
      have hle := length_le_sum_of_pos t2 h2
      have hne : t2 ≠ [] := by
        intro h; subst h; simp at hsum
      have := List.length_pos.mpr hne
      simp only [List.length_cons]
      omega

/-- Multiplicity-list shape: head 2, second not 2, positive entries sorted
descending, total 5 forces `[2, 1, 1, 1]`. -/
theorem shape_pair (l : List Nat) (hsorted : List.Sorted natBefore l)
    (hpos : ∀ x ∈ l, 1 ≤ x) (hsum : l.sum = 5) (hhead : l.headI = 2)
    (hsecond : l.getD 1 0 ≠ 2) : l.length = 4 := by
  cases l with
  | nil => simp at hhead
  | cons a t =>
    simp only [List.headI] at hhead
    subst hhead
    cases t with
    | nil => simp at hsum
    | cons b t2 =>
      have hb2 : b ≠ 2 := by
        intro h; subst h; simp at hsecond
      have hbpos : 1 ≤ b := hpos b (by simp)
      have hble : b ≤ 2 :=
        List.rel_of_sorted_cons hsorted b (by simp)
      have hb1 : b = 1 := by omega
      subst hb1
      have hall1 : ∀ x ∈ t2, x = 1 := by
        intro x hx
        have hx1 : 1 ≤ x := hpos x
          (List.mem_cons_of_mem _ (List.mem_cons_of_mem _ hx))
        have hxle : x ≤ 1 :=
          List.rel_of_sorted_cons (List.sorted_cons.mp hsorted).2 x hx
        omega
      have := sum_eq_length_of_all_one t2 hall1
      simp only [List.sum_cons] at hsum
      simp only [List.length_cons]
      omega

/-- On 5-card inputs, the kicker array of `evaluate5Cards` has the length
determined by its ranking. -/
theorem evaluate5Cards_kickers_length (cards : List Card)
    (h5 : cards.length = 5) :
    (evaluate5Cards cards).kickers.length =
      kickerLen (evaluate5Cards cards).ranking := by
  have hslen : (List.insertionSort cardBefore cards).length = 5 := by
    rw [List.length_insertionSort]; exact h5
  have hranks :
      ((List.insertionSort cardBefore cards).map (·.value)).length = 5 := by
    simp [hslen]
  simp only [evaluate5Cards]
  set ranks := (List.insertionSort cardBefore cards).map (·.value) with hR
  set rc := countRanks ranks with hrc
  set counts := List.insertionSort natBefore (rc.map (·.2)) with hcounts
  have hperm : counts.Perm (rc.map (·.2)) := List.perm_insertionSort _ _
  have hsum : counts.sum = 5 := by
    rw [hperm.sum_eq, hrc, countRanks_sum]; exact hranks
  have hpos : ∀ x ∈ counts, 1 ≤ x := by
    intro x hx
    have hx' : x ∈ rc.map (·.2) := hperm.mem_iff.mp hx
    obtain ⟨p, hp, rfl⟩ := List.mem_map.mp hx'
    exact countRanks_pos _ p hp
  have hsorted : List.Sorted natBefore counts := List.sorted_insertionSort _ _
  have hclen : counts.length = rc.length := by
    rw [hperm.length_eq, List.length_map]
  have hklen : (getKickers rc).length = rc.length := by
    simp [getKickers]
  split
  next h1 =>
    exact hranks.trans (by decide : (5 : ℕ) = kickerLen 10)
  next h1 =>
    split
    next h2 =>
      split
      next h3 => exact (by decide : ([3, 2, 1, 0, -1] : List Int).length = kickerLen 9)
      next h3 => exact hranks.trans (by decide : (5 : ℕ) = kickerLen 9)
    next h2 =>
      split
      next h4 =>
        have h4' : counts.headI = 4 := by simpa using h4
        show (getKickers rc).length = kickerLen 8
        rw [hklen, ← hclen, shape_four counts hpos hsum h4']
        decide
      next h4 =>
        split
        next h5c =>
          have h5' := h5c
          simp only [Bool.and_eq_true, beq_iff_eq] at h5'
          show (getKickers rc).length = kickerLen 7
          rw [hklen, ← hclen, shape_fullhouse counts hpos hsum h5'.1 h5'.2]
          decide
        next h5c =>
          split
          next h6 => exact hranks.trans (by decide : (5 : ℕ) = kickerLen 6)
          next h6 =>
            split
            next h7 =>
              split
              next h8 => exact (by decide : ([3] : List Int).length = kickerLen 5)
              next h8 => exact (by decide : (1 : ℕ) = kickerLen 5)
            next h7 =>
              split
              next h9 =>
                have h9' : counts.headI = 3 := by simpa using h9
                have hs2 : counts.getD 1 0 ≠ 2 := by
                  intro hgd
                  apply h5c
                  simp only [Bool.and_eq_true, beq_iff_eq]
                  exact ⟨h9', hgd⟩
                show (getKickers rc).length = kickerLen 4
                rw [hklen, ← hclen, shape_trips counts hpos hsum h9' hs2]
                decide
              next h9 =>
                split
                next h10 =>
                  have h10' := h10
                  simp only [Bool.and_eq_true, beq_iff_eq] at h10'
                  show (getKickers rc).length = kickerLen 3
                  rw [hklen, ← hclen, shape_twopair counts hpos hsum h10'.1 h10'.2]
                  decide
                next h10 =>
                  split
                  next h11 =>
                    have h11' : counts.headI = 2 := by simpa using h11
                    have hs2 : counts.getD 1 0 ≠ 2 := by
                      intro hgd
                      apply h10
                      simp only [Bool.and_eq_true, beq_iff_eq]
                      exact ⟨h11', hgd⟩
                    show (getKickers rc).length = kickerLen 2
                    rw [hklen, ← hclen, shape_pair counts hsorted hpos hsum h11' hs2]
                    decide
                  next h11 =>
                    exact hranks.trans (by decide : (5 : ℕ) = kickerLen 1)

/-- One fold step of `evaluateHand` preserves well-formedness. -/
theorem betterHand_wf (best : Option HandResult) (combo : List Card)
    (hc : combo.length = 5) (hb : ∀ r₀, best = some r₀ → resWF r₀) :
    ∀ r, betterHand best combo = some r → resWF r := by
  intro r h
  have hres : resWF { evaluate5Cards combo with cards := combo } :=
    evaluate5Cards_kickers_length combo hc
  unfold betterHand at h
  cases best with
  | none =>
    simp only [Option.some.injEq] at h
    exact h ▸ hres
  | some b =>
    simp only at h
    split at h <;> simp only [Option.some.injEq] at h
    · exact h ▸ hres
    · exact h ▸ hb b rfl

/-- Every result produced by `evaluateHand` is well-formed. -/
theorem evaluateHand_wf (cards : List Card) (r : HandResult)
    (h : evaluateHand cards = some r) : resWF r := by
  unfold evaluateHand at h
  split at h
  · exact absurd h (by simp)
  · have hcombos : ∀ l ∈ getCombinations cards 5, l.length = 5 :=
      getCombinations_length cards 5 (by omega)
    suffices haux : ∀ (combos : List (List Card)) (acc : Option HandResult),
        (∀ l ∈ combos, l.length = 5) → (∀ r₀, acc = some r₀ → resWF r₀) →
        ∀ r', combos.foldl betterHand acc = some r' → resWF r' by
      exact haux _ none hcombos (by simp) r h
    intro combos
    induction combos with
    | nil => intro acc _ hacc r' h'; exact hacc r' h'
    | cons combo rest ih =>
      intro acc hlen hacc r' h'
      simp only [List.foldl_cons] at h'
      exact ih (betterHand acc combo)
        (fun l hl => hlen l (List.mem_cons_of_mem _ hl))
        (betterHand_wf acc combo (hlen combo (by simp)) hacc) r' h'

/-- `compareKickers` on equal-length lists always yields a number. -/
theorem compareKickers_total :
    ∀ (as bs : List Int), as.length = bs.length →
      ∃ v, compareKickers as bs = some v := by
  intro as
  induction as with
  | nil => intro bs _; exact ⟨0, rfl⟩
  | cons a as ih =>
    intro bs h
    cases bs with
    | nil => simp at h
    | cons b bs =>
      simp only [List.length_cons, Nat.add_right_cancel_iff] at h
      by_cases hab : a = b
      · subst hab
        obtain ⟨v, hv⟩ := ih bs h
        exact ⟨v, by simpa [compareKickers] using hv⟩
      · exact ⟨a - b, by simp [compareKickers, hab]⟩

/-- `compareKickers` on equal-length lists is antisymmetric. -/
theorem compareKickers_antisym :
    ∀ (as bs : List Int) (v : Int), as.length = bs.length →
      compareKickers as bs = some v → compareKickers bs as = some (-v) := by
  intro as
  induction as with
  | nil =>
    intro bs v h hv
    cases bs with
    | nil =>
      simp only [compareKickers, Option.some.injEq] at hv
      simp [compareKickers, ← hv]
    | cons b bs => simp at h
  | cons a as ih =>
    intro bs v h hv
    cases bs with
    | nil => simp at h
    | cons b bs =>
      simp only [List.length_cons, Nat.add_right_cancel_iff] at h
      by_cases hab : a = b
      · subst hab
        simp only [compareKickers, if_neg (by simp : ¬(a ≠ a))] at hv ⊢
        exact ih bs v h hv
      · have hba : b ≠ a := fun hh => hab hh.symm
        simp only [compareKickers, if_pos hab, Option.some.injEq] at hv
        simp only [compareKickers, if_pos hba, Option.some.injEq]
        omega

/-- On equal-length lists, `compareKickers` is zero exactly on equal
lists. -/
theorem compareKickers_zero_iff :
    ∀ (as bs : List Int), as.length = bs.length →
      (compareKickers as bs = some 0 ↔ as = bs) := by
  intro as
  induction as with
  | nil =>
    intro bs h
    cases bs with
    | nil => simp [compareKickers]
    | cons b bs => simp at h
  | cons a as ih =>
    intro bs h
    cases bs with
    | nil => simp at h
    | cons b bs =>
      simp only [List.length_cons, Nat.add_right_cancel_iff] at h
      by_cases hab : a = b
      · subst hab
        simp only [compareKickers, if_neg (by simp : ¬(a ≠ a))]
        rw [ih bs h]
        simp
      · simp only [compareKickers, if_pos hab, Option.some.injEq]
        constructor
        · intro hv; exact absurd (by omega : a = b) hab
        · intro hv; cases hv; exact absurd rfl hab

/-- On equal-length lists, strict `compareKickers` dominance is
transitive. -/
theorem compareKickers_trans_pos :
    ∀ (as bs cs : List Int) (u v : Int), as.length = bs.length →
      bs.length = cs.length →
      compareKickers as bs = some u → 0 < u →
      compareKickers bs cs = some v → 0 < v →
      ∃ w, compareKickers as cs = some w ∧ 0 < w := by
  intro as
  induction as with
  | nil =>
    intro bs cs u v h1 _ hu hupos _ _
    cases bs with
    | nil =>
      simp only [compareKickers, Option.some.injEq] at hu
      omega
    | cons b bs => simp at h1
  | cons a as ih =>
    intro bs cs u v h1 h2 hu hupos hv hvpos
    cases bs with
    | nil => simp at h1
    | cons b bs =>
      cases cs with
      | nil => simp at h2
      | cons c cs =>
        simp only [List.length_cons, Nat.add_right_cancel_iff] at h1 h2
        by_cases hab : a = b <;> by_cases hbc : b = c
        · subst hab; subst hbc
          simp only [compareKickers, if_neg (by simp : ¬(a ≠ a))] at hu hv ⊢
          exact ih bs cs u v h1 h2 hu hupos hv hvpos
        · subst hab
          simp only [compareKickers, if_pos hbc, Option.some.injEq] at hv
          simp only [compareKickers, if_pos hbc]
          exact ⟨a - c, rfl, by omega⟩
        · subst hbc
          simp only [compareKickers, if_pos hab, Option.some.injEq] at hu
          simp only [compareKickers, if_pos hab]
          exact ⟨a - b, rfl, by omega⟩
        · simp only [compareKickers, if_pos hab, Option.some.injEq] at hu
          simp only [compareKickers, if_pos hbc, Option.some.injEq] at hv
          have hac : a ≠ c := by omega
          simp only [compareKickers, if_pos hac]
          exact ⟨a - c, rfl, by omega⟩

/-- `compareHands(...) > 0` holds exactly for a positive numeric result. -/
theorem jsGtZero_iff (o : Option Int) :
    jsGtZero o = true ↔ ∃ v, o = some v ∧ 0 < v := by
  cases o with
  | none => simp [jsGtZero]
  | some a =>
    simp only [jsGtZero, decide_eq_true_eq, Option.some.injEq]
    constructor
    · intro h; exact ⟨a, rfl, h⟩
    · rintro ⟨v, rfl, hv⟩; exact hv

/-- `compareHands` never yields `NaN` between well-formed results. -/
theorem compareHands_total (a b : HandResult) (ha : resWF a) (hb : resWF b) :
    ∃ v, compareHands a b = some v := by
  unfold compareHands
  split
  next => exact ⟨_, rfl⟩
  next h =>
    have hrank : a.ranking = b.ranking := not_ne_iff.mp h
    exact compareKickers_total _ _ (by rw [ha, hb, hrank])

/-- `compareHands` is antisymmetric on well-formed results. -/
theorem compareHands_antisym (a b : HandResult) (ha : resWF a)
    (hb : resWF b) (v : Int) (h : compareHands a b = some v) :
    compareHands b a = some (-v) := by
  unfold compareHands at h ⊢
  split at h
  next hne =>
    simp only [Option.some.injEq] at h
    split
    next => simp only [Option.some.injEq]; omega
    next h2 => exact absurd (not_ne_iff.mp h2).symm hne
  next heq =>
    have hrank := not_ne_iff.mp heq
    split
    next h2 => exact absurd hrank.symm h2
    next =>
      exact compareKickers_antisym _ _ v (by rw [ha, hb, hrank]) h

/-- `compareHands` ties exactly on identical category and kickers (for
well-formed results). -/
theorem compareHands_zero_iff (a b : HandResult) (ha : resWF a)
    (hb : resWF b) :
    compareHands a b = some 0 ↔
      a.ranking = b.ranking ∧ a.kickers = b.kickers := by
  unfold compareHands
  split
  next hne =>
    simp only [Option.some.injEq]
    constructor
    · intro h0; exact absurd (by omega : a.ranking = b.ranking) hne
    · rintro ⟨h1, _⟩; exact absurd h1 hne
  next heq =>
    have hrank := not_ne_iff.mp heq
    rw [compareKickers_zero_iff _ _ (by rw [ha, hb, hrank])]
    simp [hrank]

/-- Strict `compareHands` dominance is transitive on well-formed results. -/
theorem compareHands_trans_pos {a b c : HandResult} (ha : resWF a)
    (hb : resWF b) (hc : resWF c)
    (h1 : jsGtZero (compareHands a b) = true)
    (h2 : jsGtZero (compareHands b c) = true) :
    jsGtZero (compareHands a c) = true := by
  rw [jsGtZero_iff] at h1 h2 ⊢
  obtain ⟨u, hu, hupos⟩ := h1
  obtain ⟨v, hv, hvpos⟩ := h2
  unfold compareHands at hu hv ⊢
  by_cases hab : a.ranking = b.ranking <;>
    by_cases hbc : b.ranking = c.ranking
  · rw [if_neg (not_ne_iff.mpr hab)] at hu
    rw [if_neg (not_ne_iff.mpr hbc)] at hv
    rw [if_neg (not_ne_iff.mpr (hab.trans hbc))]
    exact compareKickers_trans_pos _ _ _ u v
      (by rw [ha, hb, hab]) (by rw [hb, hc, hbc]) hu hupos hv hvpos
  · rw [if_neg (not_ne_iff.mpr hab)] at hu
    rw [if_pos hbc] at hv
    simp only [Option.some.injEq] at hv
    have hac : a.ranking ≠ c.ranking := by rw [hab]; omega
    rw [if_pos hac]
    exact ⟨a.ranking - c.ranking, rfl, by rw [hab]; omega⟩
  · rw [if_pos hab] at hu
    rw [if_neg (not_ne_iff.mpr hbc)] at hv
    simp only [Option.some.injEq] at hu
    have hac : a.ranking ≠ c.ranking := by rw [← hbc]; omega
    rw [if_pos hac]
    exact ⟨a.ranking - c.ranking, rfl, by rw [← hbc]; omega⟩
  · rw [if_pos hab] at hu
    rw [if_pos hbc] at hv
    simp only [Option.some.injEq] at hu hv
    have hac : a.ranking ≠ c.ranking := by omega
    rw [if_pos hac]
    exact ⟨a.ranking - c.ranking, rfl, by omega⟩

/-! ## C4: the hand comparison is a total order on evaluator results -/

/-- C4.  For any 5–7-card inputs, comparison of evaluator results is
transitive and antisymmetric, always numeric (never `NaN`), and ties occur
exactly on identical category and identical kicker arrays. -/
theorem evaluator_total_order (A B C : List Card) (ra rb rc : HandResult)
    (_hA1 : 5 ≤ A.length) (_hA2 : A.length ≤ 7)
    (_hB1 : 5 ≤ B.length) (_hB2 : B.length ≤ 7)
    (_hC1 : 5 ≤ C.length) (_hC2 : C.length ≤ 7)
    (hra : evaluateHand A = some ra) (hrb : evaluateHand B = some rb)
    (hrc : evaluateHand C = some rc) :
    (jsGtZero (compareHands ra rb) = true →
      jsGtZero (compareHands rb rc) = true →
      jsGtZero (compareHands ra rc) = true) ∧
    (∀ v, compareHands ra rb = some v → compareHands rb ra = some (-v)) ∧
    (∃ v, compareHands ra rb = some v) ∧
    (compareHands ra rb = some 0 ↔
      ra.ranking = rb.ranking ∧ ra.kickers = rb.kickers) := by
  have wa := evaluateHand_wf A ra hra
  have wb := evaluateHand_wf B rb hrb
  have wc := evaluateHand_wf C rc hrc
  exact ⟨fun h1 h2 => compareHands_trans_pos wa wb wc h1 h2,
    fun v h => compareHands_antisym _ _ wa wb v h,
    compareHands_total _ _ wa wb,
    compareHands_zero_iff _ _ wa wb⟩

/-- C4 witness: the pair of aces ties with nothing here, beats the ten-high
hand by transitivity through the pair of kings. -/
theorem evaluator_total_order_witness :
    (5 ≤ c4A.length ∧ c4A.length ≤ 7 ∧
      evaluateHand c4A = some ⟨2, [12, 11, 10, 7], c4A⟩) ∧
    jsGtZero (compareHands (⟨2, [12, 11, 10, 7], c4A⟩ : HandResult)
      (⟨1, [8, 6, 4, 2, 0], c4C⟩ : HandResult)) = true :=
  ⟨⟨by decide, by decide, by decide⟩,
    (evaluator_total_order c4A c4B c4C
      ⟨2, [12, 11, 10, 7], c4A⟩ ⟨2, [11, 10, 9, 7], c4B⟩
      ⟨1, [8, 6, 4, 2, 0], c4C⟩
      (by decide) (by decide) (by decide) (by decide) (by decide) (by decide)
      (by decide) (by decide) (by decide)).1 (by decide) (by decide)⟩

/-! ## C7: the wheel straight -/

/-- The `isFlush` test of `evaluate5Cards` holds exactly when all cards of a
nonempty input share one suit. -/
theorem flush_iff (D : List Card) (hne : D ≠ []) :
    (((List.insertionSort cardBefore D).map (·.suit)).all
        (· == ((List.insertionSort cardBefore D).map (·.suit)).headI)) = true ↔
      ∃ s, ∀ c ∈ D, c.suit = s := by
  have hperm : (List.insertionSort cardBefore D).Perm D :=
    List.perm_insertionSort _ _
  cases hS : List.insertionSort cardBefore D with
  | nil =>
    rw [hS] at hperm
    exact absurd hperm.nil_eq.symm hne
  | cons c0 cs =>
    rw [hS] at hperm
    simp only [List.map_cons, List.headI, List.all_cons, List.all_eq_true,
      beq_self_eq_true, Bool.true_and, List.mem_map, beq_iff_eq,
      forall_exists_index, and_imp]
    constructor
    · intro hall
      refine ⟨c0.suit, fun c hc => ?_⟩
      have hmem : c ∈ c0 :: cs := hperm.mem_iff.mpr hc
      rcases List.mem_cons.mp hmem with rfl | hmem
      · rfl
      · exact hall c.suit c hmem rfl
    · rintro ⟨s, hs⟩
      have h2 : c0.suit = s := hs c0 (hperm.subset (by simp))
      intro x c hc hx
      subst hx
      rw [hs c (hperm.subset (List.mem_cons_of_mem _ hc)), h2]

/-- A 5-long descending run of nonnegative values tops out at 4 or more. -/
theorem checkStraight_head_ge (l : List Int) (hlen : l.length = 5)
    (hpos : ∀ x ∈ l, 0 ≤ x) (hs : checkStraight l = true) : 4 ≤ l.headI := by
  match l, hlen with
  | [a, b, c, d, e], _ =>
    simp only [checkStraight, Bool.and_eq_true, decide_eq_true_eq] at hs
    have he := hpos e (by simp)
    simp only [List.headI]
    omega

/-- Inversion of the STRAIGHT branch of `evaluate5Cards`: a straight's
kickers are `[3]` for the wheel and `[top rank]` for a genuine run. -/
theorem straight_branch_inv (E : List Card) (r : HandResult)
    (heval : evaluate5Cards E = r) (hrank : r.ranking = 5) :
    r.kickers = [3] ∨
      (checkStraight ((List.insertionSort cardBefore E).map (·.value)) = true ∧
        r.kickers =
          [((List.insertionSort cardBefore E).map (·.value)).headI]) := by
  simp only [evaluate5Cards] at heval
  split at heval
  next => subst heval; dsimp only at hrank; omega
  next =>
    split at heval
    next => subst heval; dsimp only at hrank; omega
    next =>
      split at heval
      next => subst heval; dsimp only at hrank; omega
      next =>
        split at heval
        next => subst heval; dsimp only at hrank; omega
        next =>
          split at heval
          next => subst heval; dsimp only at hrank; omega
          next =>
            split at heval
            next h6 =>
              split at heval
              next => subst heval; left; rfl
              next h7 =>
                subst heval
                right
                refine ⟨?_, rfl⟩
                simp only [Bool.or_eq_true] at h6
                rcases h6 with h6 | h6
                · exact h6
                · exact absurd h6 (by simpa using h7)
            next =>
              split at heval
              next => subst heval; dsimp only at hrank; omega
              next =>
                split at heval
                next => subst heval; dsimp only at hrank; omega
                next =>
                  split at heval
                  next => subst heval; dsimp only at hrank; omega
                  next => subst heval; dsimp only at hrank; omega

/-- Inversion of the STRAIGHT_FLUSH branch of `evaluate5Cards`. -/
theorem sflush_branch_inv (E : List Card) (r : HandResult)
    (heval : evaluate5Cards E = r) (hrank : r.ranking = 9) :
    r.kickers = [3, 2, 1, 0, -1] ∨
      (checkStraight ((List.insertionSort cardBefore E).map (·.value)) = true ∧
        r.kickers = (List.insertionSort cardBefore E).map (·.value)) := by
  simp only [evaluate5Cards] at heval
  split at heval
  next => subst heval; dsimp only at hrank; omega
  next =>
    split at heval
    next h2 =>
      split at heval
      next => subst heval; left; rfl
      next h3 =>
        subst heval
        right
        refine ⟨?_, rfl⟩
        simp only [Bool.and_eq_true, Bool.or_eq_true] at h2
        rcases h2.2 with h | h
        · exact h
        · exact absurd h (by simpa using h3)
    next =>
      split at heval
      next => subst heval; dsimp only at hrank; omega
      next =>
        split at heval
        next => subst heval; dsimp only at hrank; omega
        next =>
          split at heval
          next => subst heval; dsimp only at hrank; omega
          next =>
            split at heval
            next =>
              split at heval
              next => subst heval; dsimp only at hrank; omega
              next => subst heval; dsimp only at hrank; omega
            next =>
              split at heval
              next => subst heval; dsimp only at hrank; omega
              next =>
                split at heval
                next => subst heval; dsimp only at hrank; omega
                next =>
                  split at heval
                  next => subst heval; dsimp only at hrank; omega
                  next => subst heval; dsimp only at hrank; omega

/-- C7.  (i) A-2-3-4-5 is classified STRAIGHT_FLUSH when suited and
STRAIGHT otherwise; (ii) every other straight (resp. straight flush) on
valid cards compares strictly above the wheel; (iii) the wheel compares
strictly above every lower-category result. -/
theorem wheel_straight_spec :
    (∀ D : List Card, D.length = 5 →
      (List.insertionSort cardBefore D).map (·.value) = [12, 3, 2, 1, 0] →
      ((∃ s, ∀ c ∈ D, c.suit = s) →
        evaluate5Cards D = ⟨9, [3, 2, 1, 0, -1], []⟩) ∧
      (¬(∃ s, ∀ c ∈ D, c.suit = s) → evaluate5Cards D = ⟨5, [3], []⟩)) ∧
    (∀ (E : List Card) (r : HandResult), E.length = 5 →
      (∀ c ∈ E, 0 ≤ c.value) → evaluate5Cards E = r →
      (r.ranking = 5 → r.kickers ≠ [3] →
        jsGtZero (compareHands r ⟨5, [3], []⟩) = true) ∧
      (r.ranking = 9 → r.kickers ≠ [3, 2, 1, 0, -1] →
        jsGtZero (compareHands r ⟨9, [3, 2, 1, 0, -1], []⟩) = true)) ∧
    (∀ r' : HandResult, r'.ranking < 5 →
      jsGtZero (compareHands ⟨5, [3], []⟩ r') = true) ∧
    (∀ r' : HandResult, r'.ranking < 9 →
      jsGtZero (compareHands ⟨9, [3, 2, 1, 0, -1], []⟩ r') = true) := by
  refine ⟨?_, ?_, ?_, ?_⟩
  · intro D h5 hranks
    have hne : D ≠ [] := by intro h; subst h; simp at h5
    constructor
    · intro hf
      cases hb : ((List.insertionSort cardBefore D).map (·.suit)).all
          (· == ((List.insertionSort cardBefore D).map (·.suit)).headI) with
      | false =>
        have := (flush_iff D hne).mpr hf
        rw [hb] at this
        exact absurd this (by decide)
      | true =>
        simp only [evaluate5Cards]
        rw [hranks, hb]
        decide
    · intro hnf
      cases hb : ((List.insertionSort cardBefore D).map (·.suit)).all
          (· == ((List.insertionSort cardBefore D).map (·.suit)).headI) with
      | true => exact absurd ((flush_iff D hne).mp hb) hnf
      | false =>
        simp only [evaluate5Cards]
        rw [hranks, hb]
        decide
  · intro E r h5 hpos heval
    have hlen : ((List.insertionSort cardBefore E).map (·.value)).length = 5 := by
      simp [h5]
    have hpos' : ∀ x ∈ (List.insertionSort cardBefore E).map (·.value),
        0 ≤ x := by
      intro x hx
      obtain ⟨c, hc, rfl⟩ := List.mem_map.mp hx
      exact hpos c ((List.mem_insertionSort cardBefore).mp hc)
    constructor
    · intro hrank hk3
      rcases straight_branch_inv E r heval hrank with hk | ⟨hstr, hk⟩
      · exact absurd hk hk3
      · have hge := checkStraight_head_ge _ hlen hpos' hstr
        rw [jsGtZero_iff]
        refine ⟨((List.insertionSort cardBefore E).map (·.value)).headI - 3,
          ?_, by omega⟩
        unfold compareHands
        rw [if_neg (not_ne_iff.mpr (by rw [hrank]))]
        rw [hk]
        show compareKickers _ [3] = _
        simp only [compareKickers]
        rw [if_pos (by omega :
          ((List.insertionSort cardBefore E).map (·.value)).headI ≠ 3)]
    · intro hrank hkw
      rcases sflush_branch_inv E r heval hrank with hk | ⟨hstr, hk⟩
      · exact absurd hk hkw
      · have hge := checkStraight_head_ge _ hlen hpos' hstr
        cases hL : (List.insertionSort cardBefore E).map (·.value) with
        | nil => rw [hL] at hlen; simp at hlen
        | cons a t =>
          have ha : 4 ≤ a := by rw [hL] at hge; simpa using hge
          rw [jsGtZero_iff]
          refine ⟨a - 3, ?_, by omega⟩
          unfold compareHands
          rw [if_neg (not_ne_iff.mpr (by rw [hrank]))]
          rw [hk, hL]
          show compareKickers (a :: t) (3 :: [2, 1, 0, -1]) = _
          simp only [compareKickers]
          rw [if_pos (by omega : a ≠ 3)]
  · intro r' h
    rw [jsGtZero_iff]
    refine ⟨5 - r'.ranking, ?_, by omega⟩
    unfold compareHands
    rw [if_pos (by show (5 : Int) ≠ r'.ranking; omega)]
  · intro r' h
    rw [jsGtZero_iff]
    refine ⟨9 - r'.ranking, ?_, by omega⟩
    unfold compareHands
    rw [if_pos (by show (9 : Int) ≠ r'.ranking; omega)]

/-- C7 witness: the concrete wheel hands and the six-high straight. -/
theorem wheel_straight_spec_witness :
    evaluate5Cards wheelFlushHand = ⟨9, [3, 2, 1, 0, -1], []⟩ ∧
    evaluate5Cards wheelHand = ⟨5, [3], []⟩ ∧
    jsGtZero (compareHands (⟨5, [4], []⟩ : HandResult) ⟨5, [3], []⟩) = true ∧
    jsGtZero (compareHands (⟨5, [3], []⟩ : HandResult)
      ⟨4, [12, 11, 10], []⟩) = true := by
  refine ⟨?_, ?_, ?_, ?_⟩
  · exact (wheel_straight_spec.1 wheelFlushHand (by decide) (by decide)).1
      ⟨"H", by decide⟩
  · refine (wheel_straight_spec.1 wheelHand (by decide) (by decide)).2 ?_
    rintro ⟨s, hs⟩
    have h1 := hs (mkCard "A" "S") (by decide)
    have h2 := hs (mkCard "2" "H") (by decide)
    rw [← h1] at h2
    exact absurd h2 (by decide)
  · exact (wheel_straight_spec.2.1 sixHighStraight ⟨5, [4], []⟩ (by decide)
      (by decide) (by decide)).1 rfl (by decide)
  · exact wheel_straight_spec.2.2.1 ⟨4, [12, 11, 10], []⟩ (by decide)

/-! ## Table lemmas -/

/-- `indexOf` is `-1` when the id is seated nowhere. -/
theorem jsSeatIndexOf_eq_neg_one (seats : List (Option String)) (pid : String)
    (h : ∀ s ∈ seats, s ≠ some pid) : jsSeatIndexOf seats pid = -1 := by
  unfold jsSeatIndexOf
  have : seats.findIdx? (· == some pid) = none := by
    rw [List.findIdx?_eq_none_iff]
    intro x hx
    simpa using h x hx
  rw [this]

/-- `_validateAction` rejects with `NoActiveHand` in WAITING/SHOWDOWN. -/
theorem validateAction_no_active_hand (t : Table) (pid : String)
    (h : t.phase = .waiting ∨ t.phase = .showdown) :
    validateAction t pid = some .noActiveHand := by
  unfold validateAction
  rw [if_pos h]

/-- `_validateAction` rejects an unseated id with `OutOfTurn` (its `-1`
index never equals the current seat, and never equals `null`). -/
theorem validateAction_unseated (t : Table) (pid : String)
    (hphase : ¬(t.phase = .waiting ∨ t.phase = .showdown))
    (hseat : ∀ s ∈ t.seats, s ≠ some pid) :
    validateAction t pid = some .outOfTurn := by
  unfold validateAction
  rw [if_neg hphase]
  cases hc : t.currentPlayerSeat with
  | none => rfl
  | some c =>
    have h1 := jsSeatIndexOf_eq_neg_one t.seats pid hseat
    have h2 : (-1 : Int) ≠ (c : Int) := by omega
    simp [h1, h2]

/-! ## C10: no action dereferences a missing player -/

/-- C10.  In phase WAITING or SHOWDOWN every action fails with
`NoActiveHand`; in any other phase an unseated player id fails with
`OutOfTurn`.  In both cases the table is untouched and the error is raised
by `_validateAction` before the player map is consulted (the `typeError`
branch modelling `players.get(...)` returning `undefined` is never
reached). -/
theorem actions_reject_before_player_lookup (t : Table) (pid : String)
    (amount : ℚ) :
    ((t.phase = .waiting ∨ t.phase = .showdown) →
      t.fold pid = (some .noActiveHand, t) ∧
      t.check pid = (some .noActiveHand, t) ∧
      t.call pid = (some .noActiveHand, t) ∧
      t.raise pid amount = (some .noActiveHand, t)) ∧
    (¬(t.phase = .waiting ∨ t.phase = .showdown) →
      (∀ s ∈ t.seats, s ≠ some pid) →
      t.fold pid = (some .outOfTurn, t) ∧
      t.check pid = (some .outOfTurn, t) ∧
      t.call pid = (some .outOfTurn, t) ∧
      t.raise pid amount = (some .outOfTurn, t)) := by
  constructor
  · intro h
    have hv := validateAction_no_active_hand t pid h
    exact ⟨by simp [Table.fold, hv], by simp [Table.check, hv],
      by simp [Table.call, hv], by simp [Table.raise, hv]⟩
  · intro hphase hseat
    have hv := validateAction_unseated t pid hphase hseat
    exact ⟨by simp [Table.fold, hv], by simp [Table.check, hv],
      by simp [Table.call, hv], by simp [Table.raise, hv]⟩

/-- C10 witness: an unknown id on a fresh waiting table, and on a flop
table. -/
theorem actions_reject_before_player_lookup_witness :
    ((mkTable "w").phase = .waiting ∨ (mkTable "w").phase = .showdown) ∧
    (mkTable "w").fold "ghost" = (some .noActiveHand, mkTable "w") ∧
    (¬(shortAllInTable.phase = .waiting ∨
        shortAllInTable.phase = .showdown) ∧
      (∀ s ∈ shortAllInTable.seats, s ≠ some "ghost") ∧
      shortAllInTable.call "ghost" = (some .outOfTurn, shortAllInTable)) := by
  refine ⟨Or.inl rfl, ?_, by decide, by decide, ?_⟩
  · exact ((actions_reject_before_player_lookup (mkTable "w") "ghost" 0).1
      (Or.inl rfl)).1
  · exact (((actions_reject_before_player_lookup shortAllInTable "ghost" 0).2
      (by decide) (by decide)).2).2.1

/-! ## C6: raise error conditions -/

/-- C6.  When it is a seated player's turn in an active hand, `raise`
fails with `InsufficientChips` whenever the amount exceeds the stack, and
with `BelowMinRaise` whenever the raise portion is below the minimum raise
while the amount is strictly below the stack. -/
theorem raise_error_conditions (t : Table) (pid : String) (amount : ℚ)
    (p : PlayerRec) (c : Nat)
    (hphase : ¬(t.phase = .waiting ∨ t.phase = .showdown))
    (hcur : t.currentPlayerSeat = some c)
    (hidx : jsSeatIndexOf t.seats pid = (c : Int))
    (hp : jsMapGet t.players pid = some p) :
    (p.chips < amount → t.raise pid amount = (some .insufficientChips, t)) ∧
    (amount - (t.currentBet - p.currentBet) < t.minRaise ∧ amount < p.chips →
      t.raise pid amount = (some (.belowMinRaise t.minRaise), t)) := by
  have hv : validateAction t pid = none := by
    unfold validateAction
    rw [if_neg hphase, hcur]
    simp [hidx]
  constructor
  · intro hgt
    simp only [Table.raise, hv, hp]
    rw [if_neg (fun hand => absurd hand.2 (not_lt.mpr (le_of_lt hgt))),
      if_pos hgt]
  · intro ⟨h1, h2⟩
    simp only [Table.raise, hv, hp]
    rw [if_pos ⟨h1, h2⟩]

/-- C6 witness: on the flop table, the player with a 30-chip stack. -/
theorem raise_error_conditions_witness :
    shortAllInTable.raise "B" 50 = (some .insufficientChips, shortAllInTable) ∧
    shortAllInTable.raise "B" 10 =
      (some (.belowMinRaise 20), shortAllInTable) := by
  have h := raise_error_conditions shortAllInTable "B" 50
    (testPlayer "B" 30 0 holeB) 1 (by decide) (by decide) (by decide)
    (by decide)
  have h' := raise_error_conditions shortAllInTable "B" 10
    (testPlayer "B" 30 0 holeB) 1 (by decide) (by decide) (by decide)
    (by decide)
  refine ⟨?_, ?_⟩
  · have := h.1 (by decide)
    simpa using this
  · have := h'.2 (by decide)
    simpa using this

/-! ## Chip-conservation lemmas -/

/-- `Map.get` on a cons cell. -/
theorem jsMapGet_cons (k : String) (v : PlayerRec)
    (rest : List (String × PlayerRec)) (pid : String) :
    jsMapGet ((k, v) :: rest) pid =
      if k = pid then some v else jsMapGet rest pid := by
  unfold jsMapGet
  by_cases hk : k = pid
  · rw [if_pos hk, List.find?_cons_of_pos _ (by simpa using hk)]; rfl
  · rw [if_neg hk, List.find?_cons_of_neg _ (by simpa using hk)]

/-- `Map.set` on a cons cell. -/
theorem jsMapSet_cons (k : String) (v p' : PlayerRec)
    (rest : List (String × PlayerRec)) (pid : String) :
    jsMapSet ((k, v) :: rest) pid p' =
      if k = pid then (pid, p') :: rest
      else (k, v) :: jsMapSet rest pid p' := rfl

/-- Replacing an existing entry shifts the chip total by the chips
difference. -/
theorem jsMapSet_chips_sum :
    ∀ (m : List (String × PlayerRec)) (pid : String) (p p' : PlayerRec),
      jsMapGet m pid = some p →
      ((jsMapSet m pid p').map (fun kv => kv.2.chips)).sum =
        (m.map (fun kv => kv.2.chips)).sum - p.chips + p'.chips := by
  intro m
  induction m with
  | nil => intro pid p p' h; simp [jsMapGet] at h
  | cons kv rest ih =>
    intro pid p p' h
    obtain ⟨k, v⟩ := kv
    rw [jsMapGet_cons] at h
    by_cases hk : k = pid
    · rw [if_pos hk] at h
      obtain rfl : v = p := by injection h
      rw [jsMapSet_cons, if_pos hk]
      simp only [List.map_cons, List.sum_cons]
      ring
    · rw [if_neg hk] at h
      rw [jsMapSet_cons, if_neg hk]
      simp only [List.map_cons, List.sum_cons, ih pid p p' h]
      ring

/-- Present keys stay present across `Map.set`. -/
theorem jsMapGet_isSome_set (m : List (String × PlayerRec))
    (k' : String) (v : PlayerRec) (k : String)
    (h : (jsMapGet m k).isSome) :
    (jsMapGet (jsMapSet m k' v) k).isSome := by
  induction m with
  | nil => simp [jsMapGet] at h
  | cons kv rest ih =>
    obtain ⟨k0, v0⟩ := kv
    rw [jsMapGet_cons] at h
    rw [jsMapSet_cons]
    by_cases h0 : k0 = k'
    · rw [if_pos h0, jsMapGet_cons]
      by_cases hk : k' = k
      · rw [if_pos hk]; simp
      · rw [if_neg hk]
        rw [if_neg (fun hh : k0 = k => hk (h0 ▸ hh))] at h
        exact h
    · rw [if_neg h0, jsMapGet_cons]
      by_cases hk : k0 = k
      · rw [if_pos hk]; simp
      · rw [if_neg hk] at h ⊢
        exact ih h

/-- A key appearing in the list is `get`-able. -/
theorem jsMapGet_isSome_of_mem (m : List (String × PlayerRec))
    (k : String) (v : PlayerRec) (h : (k, v) ∈ m) :
    (jsMapGet m k).isSome := by
  induction m with
  | nil => simp at h
  | cons kv rest ih =>
    obtain ⟨k0, v0⟩ := kv
    rw [jsMapGet_cons]
    by_cases hk : k0 = k
    · rw [if_pos hk]; simp
    · rw [if_neg hk]
      rcases List.mem_cons.mp h with heq | hmem
      · exact absurd (by injection heq with h1 _; exact h1.symm) hk
      · exact ih hmem

/-- `winner.chips += amt` raises the chip total by exactly `amt` when the
winner's id is present. -/
theorem creditWinner_sum (m : List (String × PlayerRec)) (wid : String)
    (amt : ℚ) (h : (jsMapGet m wid).isSome) :
    ((creditWinner m wid amt).map (fun kv => kv.2.chips)).sum =
      (m.map (fun kv => kv.2.chips)).sum + amt := by
  unfold creditWinner
  cases hg : jsMapGet m wid with
  | none => rw [hg] at h; simp at h
  | some p =>
    simp only [hg]
    rw [jsMapSet_chips_sum m wid p _ hg]
    show _ - p.chips + (p.chips + amt) = _
    ring

/-- `creditWinner` keeps every present key present. -/
theorem creditWinner_isSome (m : List (String × PlayerRec))
    (wid : String) (amt : ℚ) (k : String) (h : (jsMapGet m k).isSome) :
    (jsMapGet (creditWinner m wid amt) k).isSome := by
  unfold creditWinner
  cases hg : jsMapGet m wid with
  | none => simp only [hg]; exact h
  | some p => simp only [hg]; exact jsMapGet_isSome_set _ _ _ _ h

/-- Crediting each of the winners `amt` raises the chip total by
`amt * #winners`. -/
theorem creditAll_sum (amt : ℚ) :
    ∀ (ws : List ShowEntry) (m : List (String × PlayerRec)),
      (∀ w ∈ ws, (jsMapGet m w.player.id).isSome) →
      ((ws.foldl (fun ps (w : ShowEntry) =>
          creditWinner ps w.player.id amt) m).map
        (fun kv => kv.2.chips)).sum =
        (m.map (fun kv => kv.2.chips)).sum + amt * ws.length := by
  intro ws
  induction ws with
  | nil => intro m _; simp
  | cons w ws ih =>
    intro m hm
    simp only [List.foldl_cons]
    rw [ih (creditWinner m w.player.id amt)
      (fun x hx => creditWinner_isSome _ _ _ _
        (hm x (List.mem_cons_of_mem _ hx)))]
    rw [creditWinner_sum m _ amt (hm w (by simp))]
    simp only [List.length_cons]
    push_cast
    ring

/-- The per-round reset leaves every stack (and the pot) unchanged. -/
theorem resetBets_chips (t : Table) :
    playersChipSum (resetBets t) = playersChipSum t := by
  unfold playersChipSum resetBets
  rw [List.map_map]
  rfl

/-- Dealing one card changes only the deck. -/
theorem dealFromDeck_preserves (t : Table) (c : Card) (t' : Table)
    (h : dealFromDeck t = .ok (c, t')) :
    t'.players = t.players ∧ t'.pot = t.pot ∧ t'.phase = t.phase := by
  unfold dealFromDeck at h
  split at h
  next => exact absurd h (by simp)
  next d hd =>
    split at h
    next => exact absurd h (by simp)
    next c0 d2 heq =>
      simp only [Except.ok.injEq, Prod.mk.injEq] at h
      obtain ⟨_, rfl⟩ := h
      exact ⟨rfl, rfl, rfl⟩

/-- `dealN` changes only the deck. -/
theorem dealN_preserves :
    ∀ (n : Nat) (t : Table) (oe : Option PokerError) (t1 : Table)
      (cs : List Card), dealN t n = (oe, t1, cs) →
      t1.players = t.players ∧ t1.pot = t.pot ∧ t1.phase = t.phase := by
  intro n
  induction n with
  | zero =>
    intro t oe t1 cs h
    simp only [dealN, Prod.mk.injEq] at h
    obtain ⟨_, rfl, _⟩ := h
    exact ⟨rfl, rfl, rfl⟩
  | succ n ih =>
    intro t oe t1 cs h
    unfold dealN at h
    split at h
    next e heq =>
      simp only [Prod.mk.injEq] at h
      obtain ⟨_, rfl, _⟩ := h
      exact ⟨rfl, rfl, rfl⟩
    next c t2 heq =>
      obtain ⟨hp, hpot, hph⟩ := dealFromDeck_preserves t c t2 heq
      simp only [Prod.mk.injEq] at h
      obtain ⟨_, rfl, _⟩ := h
      obtain ⟨hp2, hpot2, hph2⟩ :=
        ih t2 (dealN t2 n).1 (dealN t2 n).2.1 (dealN t2 n).2.2 rfl
      exact ⟨hp2.trans hp, hpot2.trans hpot, hph2.trans hph⟩

/-- The community-card dealing step of `_advancePhase` changes neither the
players nor the pot. -/
theorem advancePhaseDeal_preserves (t : Table) (oe : Option PokerError)
    (t1 : Table) (h : advancePhaseDeal t = (oe, t1)) :
    t1.players = t.players ∧ t1.pot = t.pot := by
  unfold advancePhaseDeal at h
  split_ifs at h
  · split at h
    next e t2 cs heq =>
      simp only [Prod.mk.injEq] at h
      obtain ⟨_, rfl⟩ := h
      obtain ⟨hp, hpot, _⟩ := dealN_preserves 3 t _ _ _ heq
      exact ⟨hp, hpot⟩
    next t2 cs heq =>
      simp only [Prod.mk.injEq] at h
      obtain ⟨_, rfl⟩ := h
      obtain ⟨hp, hpot, _⟩ := dealN_preserves 3 t _ _ _ heq
      exact ⟨hp, hpot⟩
  · split at h
    next => simp only [Prod.mk.injEq] at h; obtain ⟨_, rfl⟩ := h
            exact ⟨rfl, rfl⟩
    next c t2 heq =>
      simp only [Prod.mk.injEq] at h
      obtain ⟨_, rfl⟩ := h
      obtain ⟨hp, hpot, _⟩ := dealFromDeck_preserves t c t2 heq
      exact ⟨hp, hpot⟩
  · split at h
    next => simp only [Prod.mk.injEq] at h; obtain ⟨_, rfl⟩ := h
            exact ⟨rfl, rfl⟩
    next c t2 heq =>
      simp only [Prod.mk.injEq] at h
      obtain ⟨_, rfl⟩ := h
      obtain ⟨hp, hpot, _⟩ := dealFromDeck_preserves t c t2 heq
      exact ⟨hp, hpot⟩
  · simp only [Prod.mk.injEq] at h
    obtain ⟨_, rfl⟩ := h
    exact ⟨rfl, rfl⟩

/-- `_showdown` always puts the table in SHOWDOWN, whatever else happens. -/
theorem showdown_phase (t : Table) (oe : Option PokerError) (t' : Table)
    (sm : Option ShowSummary) (h : showdown t = (oe, t', sm)) :
    t'.phase = .showdown := by
  unfold showdown at h
  dsimp only at h
  split at h
  next =>
    simp only [Prod.mk.injEq] at h
    obtain ⟨_, rfl, _⟩ := h
    rfl
  next results heq =>
    split at h
    next =>
      simp only [Prod.mk.injEq] at h
      obtain ⟨_, rfl, _⟩ := h
      rfl
    next d hd =>
      simp only [Prod.mk.injEq] at h
      obtain ⟨_, rfl, _⟩ := h
      rfl

/-- `_advancePhase` conserves stacks and pot unless it reached showdown. -/
theorem advancePhase_conserves :
    ∀ (fuel : Nat) (t : Table) (oe : Option PokerError) (t' : Table)
      (sm : Option ShowSummary), advancePhase fuel t = (oe, t', sm) →
      t'.phase ≠ .showdown →
      playersChipSum t' = playersChipSum t ∧ t'.pot = t.pot := by
  intro fuel
  induction fuel with
  | zero =>
    intro t oe t' sm h _
    simp only [advancePhase, Prod.mk.injEq] at h
    obtain ⟨_, rfl, _⟩ := h
    exact ⟨rfl, rfl⟩
  | succ fuel ih =>
    intro t oe t' sm h hph
    unfold advancePhase at h
    dsimp only at h
    split at h
    next => exact absurd (showdown_phase _ _ _ _ h) hph
    next =>
      split at h
      next e t1 heq =>
        simp only [Prod.mk.injEq] at h
        obtain ⟨_, rfl, _⟩ := h
        obtain ⟨hp, hpot⟩ := advancePhaseDeal_preserves _ _ _ heq
        constructor
        · show playersChipSum t1 = _
          unfold playersChipSum
          rw [hp]
          exact resetBets_chips t
        · exact hpot
      next t1 heq =>
        obtain ⟨hp, hpot⟩ := advancePhaseDeal_preserves _ _ _ heq
        split at h
        · have := ih _ _ _ _ h hph
          refine ⟨this.1.trans ?_, this.2.trans ?_⟩
          · show playersChipSum (setNextPlayer t1 t1.dealerSeat) = _
            unfold playersChipSum setNextPlayer
            rw [hp]
            exact resetBets_chips t
          · exact hpot
        · simp only [Prod.mk.injEq] at h
          obtain ⟨_, rfl, _⟩ := h
          constructor
          · show playersChipSum (setNextPlayer t1 t1.dealerSeat) = _
            unfold playersChipSum setNextPlayer
            rw [hp]
            exact resetBets_chips t
          · exact hpot

/-- `_advanceGame` conserves stacks and pot unless an award/showdown ran
(every award path leaves the phase at SHOWDOWN). -/
theorem advanceGame_conserves (t : Table) (oe : Option PokerError)
    (t' : Table) (sm : Option ShowSummary)
    (h : advanceGame t = (oe, t', sm)) (hph : t'.phase ≠ .showdown) :
    playersChipSum t' = playersChipSum t ∧ t'.pot = t.pot := by
  unfold advanceGame at h
  split at h
  next p =>
    simp only [Prod.mk.injEq] at h
    obtain ⟨_, rfl, _⟩ := h
    exact absurd rfl hph
  next =>
    split at h
    · exact advancePhase_conserves 5 t oe t' sm h hph
    · simp only [Prod.mk.injEq] at h
      obtain ⟨_, rfl, _⟩ := h
      exact ⟨rfl, rfl⟩

/-- Dropping the snapshot summary: the resulting table is the one
`_advanceGame` produced, so conservation transfers. -/
theorem dropSummary_advance_conserves (X : Table) (oe : Option PokerError)
    (t' : Table) (h : dropSummary (advanceGame X) = (oe, t'))
    (hph : t'.phase ≠ .showdown) :
    playersChipSum t' = playersChipSum X ∧ t'.pot = X.pot := by
  rcases hAG : advanceGame X with ⟨oe0, t0, sm0⟩
  rw [hAG] at h
  unfold dropSummary at h
  simp only [Prod.mk.injEq] at h
  obtain ⟨rfl, rfl⟩ := h
  exact advanceGame_conserves X oe0 t0 sm0 hAG hph

/-- `fold` moves no chips: the conserved quantity is unchanged whenever no
award ran. -/
theorem fold_conserves (t : Table) (pid : String) (oe : Option PokerError)
    (t' : Table) (h : t.fold pid = (oe, t'))
    (hph : t'.phase ≠ .showdown) : chipSum t' = chipSum t := by
  unfold Table.fold at h
  split at h
  next e heq =>
    simp only [Prod.mk.injEq] at h
    obtain ⟨_, rfl⟩ := h; rfl
  next heq =>
    split at h
    next =>
      simp only [Prod.mk.injEq] at h
      obtain ⟨_, rfl⟩ := h; rfl
    next p hp =>
      dsimp only at h
      obtain ⟨h1, h2⟩ := dropSummary_advance_conserves _ _ _ h hph
      unfold chipSum
      rw [h1, h2]
      unfold playersChipSum
      dsimp only [logAction]
      rw [jsMapSet_chips_sum t.players pid p _ hp]
      ring

/-- `check` moves no chips either. -/
theorem check_conserves (t : Table) (pid : String) (oe : Option PokerError)
    (t' : Table) (h : t.check pid = (oe, t'))
    (hph : t'.phase ≠ .showdown) : chipSum t' = chipSum t := by
  unfold Table.check at h
  split at h
  next e heq =>
    simp only [Prod.mk.injEq] at h
    obtain ⟨_, rfl⟩ := h; rfl
  next heq =>
    split at h
    next =>
      simp only [Prod.mk.injEq] at h
      obtain ⟨_, rfl⟩ := h; rfl
    next p hp =>
      split at h
      next =>
        simp only [Prod.mk.injEq] at h
        obtain ⟨_, rfl⟩ := h; rfl
      next =>
        dsimp only at h
        obtain ⟨h1, h2⟩ := dropSummary_advance_conserves _ _ _ h hph
        unfold chipSum
        rw [h1, h2]
        unfold playersChipSum
        dsimp only [logAction]
        rw [jsMapSet_chips_sum t.players pid p _ hp]
        ring

/-- `call` moves `actualCall` from the stack to the pot: conserved. -/
theorem call_conserves (t : Table) (pid : String) (oe : Option PokerError)
    (t' : Table) (h : t.call pid = (oe, t'))
    (hph : t'.phase ≠ .showdown) : chipSum t' = chipSum t := by
  unfold Table.call at h
  split at h
  next e heq =>
    simp only [Prod.mk.injEq] at h
    obtain ⟨_, rfl⟩ := h; rfl
  next heq =>
    split at h
    next =>
      simp only [Prod.mk.injEq] at h
      obtain ⟨_, rfl⟩ := h; rfl
    next p hp =>
      dsimp only at h
      split at h
      next =>
        simp only [Prod.mk.injEq] at h
        obtain ⟨_, rfl⟩ := h; rfl
      next =>
        obtain ⟨h1, h2⟩ := dropSummary_advance_conserves _ _ _ h hph
        unfold chipSum
        rw [h1, h2]
        unfold playersChipSum
        dsimp only [logAction]
        rw [jsMapSet_chips_sum t.players pid p _ hp]
        split
        · dsimp only; ring
        · dsimp only; ring

/-- `raise` moves `amount` from the stack to the pot: conserved. -/
theorem raise_conserves (t : Table) (pid : String) (amount : ℚ)
    (oe : Option PokerError) (t' : Table)
    (h : t.raise pid amount = (oe, t'))
    (hph : t'.phase ≠ .showdown) : chipSum t' = chipSum t := by
  unfold Table.raise at h
  split at h
  next e heq =>
    simp only [Prod.mk.injEq] at h
    obtain ⟨_, rfl⟩ := h; rfl
  next heq =>
    split at h
    next =>
      simp only [Prod.mk.injEq] at h
      obtain ⟨_, rfl⟩ := h; rfl
    next p hp =>
      dsimp only at h
      split at h
      next =>
        simp only [Prod.mk.injEq] at h
        obtain ⟨_, rfl⟩ := h; rfl
      next =>
        split at h
        next =>
          simp only [Prod.mk.injEq] at h
          obtain ⟨_, rfl⟩ := h; rfl
        next =>
          obtain ⟨h1, h2⟩ := dropSummary_advance_conserves _ _ _ h hph
          unfold chipSum
          rw [h1, h2]
          unfold playersChipSum
          dsimp only [logAction]
          rw [jsMapSet_chips_sum t.players pid p _ hp]
          split
          · dsimp only; ring
          · dsimp only; ring

/-- `_awardPot` pays the winner `pot − rake` and leaves the pot field
untouched (it is reset only by the next `startHand`). -/
theorem awardPot_spec (t : Table) (w : PlayerRec)
    (hw : (jsMapGet t.players w.id).isSome) :
    (awardPot t w).pot = t.pot ∧
    playersChipSum (awardPot t w) =
      playersChipSum t + (t.pot - min (t.pot * t.rake) t.rakeMax) := by
  refine ⟨rfl, ?_⟩
  unfold awardPot playersChipSum
  dsimp only [logAction]
  exact creditWinner_sum t.players w.id _ hw

/-- Players in `_showdown`'s result list come from the players-in-hand
list. -/
theorem evalResults_player_mem (community : List Card) :
    ∀ (ps : List PlayerRec) (es : List ShowEntry),
      evalResults community ps = some es → ∀ e ∈ es, e.player ∈ ps := by
  intro ps
  induction ps with
  | nil =>
    intro es h e he
    simp only [evalResults, Option.some.injEq] at h
    subst h
    simp at he
  | cons p rest ih =>
    intro es h e he
    unfold evalResults at h
    split at h
    next => exact absurd h (by simp)
    next hand hh =>
      split at h
      next => exact absurd h (by simp)
      next es0 hrec =>
        simp only [Option.some.injEq] at h
        subst h
        rcases List.mem_cons.mp he with rfl | hmem
        · exact List.mem_cons_self _ _
        · exact List.mem_cons_of_mem _ (ih es0 hrec e hmem)

/-- Winners collected by `_showdown` are players in hand. -/
theorem takeTiedWinners_subset (l : List ShowEntry) :
    ∀ x ∈ takeTiedWinners l, x ∈ l := by
  cases l with
  | nil => intro x hx; simp [takeTiedWinners] at hx
  | cons r0 rest =>
    intro x hx
    rcases List.mem_cons.mp hx with rfl | hx
    · exact List.mem_cons_self _ _
    · exact List.mem_cons_of_mem _ (List.takeWhile_subset _ hx)

/-- `_showdown` pays each of the `k` tied winners
`⌊(pot − rake) / k⌋`, so the stacks absorb `pot − rake` minus the
floor-division remainder; the pot field itself is untouched. -/
theorem showdown_spec (t t' : Table) (sd : ShowSummary)
    (hcoh : ∀ kv ∈ t.players, kv.2.id = kv.1)
    (h : showdown t = (none, t', some sd)) :
    t'.pot = t.pot ∧
    sd.rake = min (t.pot * t.rake) t.rakeMax ∧
    sd.winAmount = ((⌊(t.pot - sd.rake) / (sd.winners.length : ℚ)⌋ : ℤ) : ℚ) ∧
    playersChipSum t' =
      playersChipSum t + (sd.winners.length : ℚ) * sd.winAmount ∧
    (1 ≤ sd.winners.length →
      (sd.winners.length : ℚ) * sd.winAmount ≤ t.pot - sd.rake) := by
  unfold showdown at h
  dsimp only at h
  split at h
  next => exact absurd h (by simp)
  next results heq =>
    split at h
    next => exact absurd h (by simp)
    next d hd =>
      simp only [Prod.mk.injEq, Option.some.injEq] at h
      obtain ⟨-, rfl, rfl⟩ := h
      have hwin : ∀ w ∈ takeTiedWinners (List.insertionSort showBefore results),
          (jsMapGet t.players w.player.id).isSome := by
        intro w hw
        have h1 : w ∈ List.insertionSort showBefore results :=
          takeTiedWinners_subset _ w hw
        have h2 : w ∈ results := (List.mem_insertionSort showBefore).mp h1
        have h3 := evalResults_player_mem _ _ results heq w h2
        have h4 : w.player ∈ t.players.map (·.2) := by
          have := List.mem_filter.mp h3
          exact this.1
        obtain ⟨⟨k, v⟩, hkv, hv⟩ := List.mem_map.mp h4
        have hid : w.player.id = k := by rw [← hv]; exact hcoh _ hkv
        rw [hid]
        exact jsMapGet_isSome_of_mem t.players k v hkv
      refine ⟨rfl, rfl, ?_, ?_, ?_⟩
      · simp only [List.length_map]
      · show (((takeTiedWinners (List.insertionSort showBefore results)).foldl
          _ t.players).map (fun kv => kv.2.chips)).sum = _
        rw [creditAll_sum _ _ t.players hwin]
        unfold playersChipSum
        simp only [List.length_map]
        ring
      · intro hk
        simp only [List.length_map] at hk ⊢
        set k := (takeTiedWinners (List.insertionSort showBefore results)).length
          with hkdef
        have hkpos : (0 : ℚ) < (k : ℚ) := by
          have : 1 ≤ k := hk
          positivity
        set x := t.pot - min (t.pot * t.rake) t.rakeMax with hxdef
        have hfl : ((⌊x / (k : ℚ)⌋ : ℤ) : ℚ) ≤ x / (k : ℚ) := Int.floor_le _
        calc (k : ℚ) * ((⌊x / (k : ℚ)⌋ : ℤ) : ℚ)
            ≤ (k : ℚ) * (x / (k : ℚ)) :=
              mul_le_mul_of_nonneg_left hfl hkpos.le
          _ = x := by rw [mul_comm]; exact div_mul_cancel₀ x hkpos.ne'

/-! ## C3: validation failures are non-mutating

The strategy: the nine listed validation errors are thrown before any
mutation (each error branch returns the entry state), and the mutating
tail of every action can only throw *system* errors (`TypeError`, deck
exhaustion, the evaluator's arity throw, loop fuel), never a listed one.
The lemmas below establish the second half. -/

/-- `deal()` on a table throws only a `TypeError` (null deck) or
`'Deck is empty'`. -/
theorem dealFromDeck_err (t : Table) (e : PokerError)
    (h : dealFromDeck t = .error e) : listedErr e = false := by
  unfold dealFromDeck at h
  split at h
  next =>
    simp only [Except.error.injEq] at h
    subst h; rfl
  next d =>
    split at h
    next =>
      simp only [Except.error.injEq] at h
      subst h; rfl
    next c d' => simp at h

/-- Repeated `deal()` calls throw only deck errors. -/
theorem dealN_err :
    ∀ (n : Nat) (t : Table) (e : PokerError) (t2 : Table) (cs : List Card),
      dealN t n = (some e, t2, cs) → listedErr e = false := by
  intro n
  induction n with
  | zero =>
    intro t e t2 cs h
    simp [dealN] at h
  | succ n ih =>
    intro t e t2 cs h
    unfold dealN at h
    split at h
    next e0 heq =>
      simp only [Prod.mk.injEq, Option.some.injEq] at h
      obtain ⟨rfl, -, -⟩ := h
      exact dealFromDeck_err t _ heq
    next c t1 heq =>
      rcases hdn : dealN t1 n with ⟨oe0, t20, cs0⟩
      rw [hdn] at h
      simp only [Prod.mk.injEq] at h
      obtain ⟨h1, -, -⟩ := h
      exact ih t1 e t20 cs0 (h1 ▸ hdn)

/-- The community-card switch of `_advancePhase` throws only deck
errors. -/
theorem advancePhaseDeal_err (t : Table) (e : PokerError) (t1 : Table)
    (h : advancePhaseDeal t = (some e, t1)) : listedErr e = false := by
  unfold advancePhaseDeal at h
  split at h
  next =>
    split at h
    next e0 t2 cs heq =>
      simp only [Prod.mk.injEq, Option.some.injEq] at h
      obtain ⟨rfl, -⟩ := h
      exact dealN_err 3 t _ t2 cs heq
    next t2 cs heq => simp at h
  next =>
    split at h
    next =>
      split at h
      next e0 heq =>
        simp only [Prod.mk.injEq, Option.some.injEq] at h
        obtain ⟨rfl, -⟩ := h
        exact dealFromDeck_err t _ heq
      next c t2 heq => simp at h
    next =>
      split at h
      next =>
        split at h
        next e0 heq =>
          simp only [Prod.mk.injEq, Option.some.injEq] at h
          obtain ⟨rfl, -⟩ := h
          exact dealFromDeck_err t _ heq
        next c t2 heq => simp at h
      next => simp at h

/-- `_showdown` throws only the evaluator arity error or a `TypeError` on
a null deck. -/
theorem showdown_err (t : Table) (e : PokerError) (t' : Table)
    (sm : Option ShowSummary) (h : showdown t = (some e, t', sm)) :
    listedErr e = false := by
  unfold showdown at h
  dsimp only at h
  split at h
  next =>
    simp only [Prod.mk.injEq, Option.some.injEq] at h
    obtain ⟨rfl, -⟩ := h; rfl
  next results heq =>
    split at h
    next =>
      simp only [Prod.mk.injEq, Option.some.injEq] at h
      obtain ⟨rfl, -⟩ := h; rfl
    next d hd => simp at h

/-- `_advancePhase` throws only system errors (deck, evaluator, fuel). -/
theorem advancePhase_err :
    ∀ (fuel : Nat) (t : Table) (e : PokerError) (t' : Table)
      (sm : Option ShowSummary),
      advancePhase fuel t = (some e, t', sm) → listedErr e = false := by
  intro fuel
  induction fuel with
  | zero =>
    intro t e t' sm h
    unfold advancePhase at h
    simp only [Prod.mk.injEq, Option.some.injEq] at h
    obtain ⟨rfl, -⟩ := h; rfl
  | succ fuel ih =>
    intro t e t' sm h
    unfold advancePhase at h
    dsimp only at h
    split at h
    next => exact showdown_err _ e t' sm h
    next =>
      split at h
      next e0 t1 heq =>
        simp only [Prod.mk.injEq, Option.some.injEq] at h
        obtain ⟨rfl, -⟩ := h
        exact advancePhaseDeal_err _ _ t1 heq
      next t1 heq =>
        split at h
        next => exact ih _ e t' sm h
        next => simp at h

/-- `_advanceGame` throws only system errors. -/
theorem advanceGame_err (t : Table) (e : PokerError) (t' : Table)
    (sm : Option ShowSummary) (h : advanceGame t = (some e, t', sm)) :
    listedErr e = false := by
  unfold advanceGame at h
  split at h
  next p => simp at h
  next =>
    split at h
    · exact advancePhase_err 5 t e t' sm h
    · simp at h

/-- The advance step at the end of a successful action throws only system
errors. -/
theorem dropSummary_advance_err (X : Table) (e : PokerError) (t' : Table)
    (h : dropSummary (advanceGame X) = (some e, t')) :
    listedErr e = false := by
  rcases hAG : advanceGame X with ⟨oe0, t0, sm0⟩
  rw [hAG] at h
  unfold dropSummary at h
  simp only [Prod.mk.injEq] at h
  obtain ⟨rfl, rfl⟩ := h
  exact advanceGame_err X e t0 sm0 hAG

/-- `_postBlinds` throws only a `TypeError` (seat/map mismatch). -/
theorem postBlinds_err (t : Table) (e : PokerError) (t1 : Table)
    (h : postBlinds t = (some e, t1)) : listedErr e = false := by
  unfold postBlinds at h
  dsimp only at h
  split at h
  all_goals
    first
    | (simp only [Prod.mk.injEq, Option.some.injEq] at h
       obtain ⟨rfl, -⟩ := h
       rfl)
    | simp at h

/-- `_dealHoleCards` throws only deck errors or a `TypeError`. -/
theorem dealHoleCardsAux_err :
    ∀ (seats : List (Option String)) (t : Table) (e : PokerError)
      (t1 : Table), dealHoleCardsAux seats t = (some e, t1) →
      listedErr e = false := by
  intro seats
  induction seats with
  | nil =>
    intro t e t1 h
    simp [dealHoleCardsAux] at h
  | cons s rest ih =>
    intro t e t1 h
    cases s with
    | none =>
      simp only [dealHoleCardsAux] at h
      exact ih t e t1 h
    | some pid =>
      unfold dealHoleCardsAux at h
      split at h
      next =>
        simp only [Prod.mk.injEq, Option.some.injEq] at h
        obtain ⟨rfl, -⟩ := h; rfl
      next p hp =>
        split at h
        next =>
          split at h
          next e0 heq =>
            simp only [Prod.mk.injEq, Option.some.injEq] at h
            obtain ⟨rfl, -⟩ := h
            exact dealFromDeck_err t _ heq
          next c1 t2 heq =>
            split at h
            next e0 heq2 =>
              simp only [Prod.mk.injEq, Option.some.injEq] at h
              obtain ⟨rfl, -⟩ := h
              exact dealFromDeck_err t2 _ heq2
            next c2 t3 heq2 => exact ih _ e t1 h
        next => exact ih t e t1 h

/-- C3.  Every listed validation failure (`InvalidBuyIn`, `TableFull`,
`NotEnoughPlayers`, `OutOfTurn`, `NoActiveHand`, `CannotCheck`,
`NothingToCall`, `BelowMinRaise`, `InsufficientChips`) of `addPlayer`,
`startHand`, `fold`, `check`, `call` and `raise` is raised before any
state mutation: whenever one of these operations returns a listed error,
the table it returns is exactly the table it was called on.  (The
mutating tails of these operations can only raise system errors —
`TypeError`, deck exhaustion, the evaluator's arity throw, loop fuel —
which are not validation failures.) -/
theorem validation_errors_non_mutating (t : Table) (pid mb wal : String)
    (buyIn amount : ℚ) (seatPref : Option Nat) (now : Nat)
    (hashFn : String → String) (shuffled : List Card) (salt : String) :
    (∀ e t', t.addPlayer mb wal buyIn seatPref now = (some e, t') →
      listedErr e = true → t' = t) ∧
    (∀ e t', t.startHand hashFn shuffled salt = (some e, t') →
      listedErr e = true → t' = t) ∧
    (∀ e t', t.fold pid = (some e, t') → listedErr e = true → t' = t) ∧
    (∀ e t', t.check pid = (some e, t') → listedErr e = true → t' = t) ∧
    (∀ e t', t.call pid = (some e, t') → listedErr e = true → t' = t) ∧
    (∀ e t', t.raise pid amount = (some e, t') → listedErr e = true →
      t' = t) := by
  refine ⟨?_, ?_, ?_, ?_, ?_, ?_⟩
  · intro e t' h hl
    unfold Table.addPlayer at h
    split at h
    next =>
      simp only [Prod.mk.injEq, Option.some.injEq] at h
      exact h.2.symm
    next =>
      dsimp only at h
      split at h
      next =>
        simp only [Prod.mk.injEq, Option.some.injEq] at h
        exact h.2.symm
      next seat => simp at h
  · intro e t' h hl
    unfold Table.startHand at h
    split at h
    next =>
      simp only [Prod.mk.injEq, Option.some.injEq] at h
      exact h.2.symm
    next =>
      dsimp only at h
      split at h
      next e0 t4 heq =>
        simp only [Prod.mk.injEq, Option.some.injEq] at h
        obtain ⟨rfl, -⟩ := h
        rw [postBlinds_err _ _ _ heq] at hl
        exact Bool.noConfusion hl
      next t4 heq =>
        split at h
        next e0 t5 heq2 =>
          simp only [Prod.mk.injEq, Option.some.injEq] at h
          obtain ⟨rfl, -⟩ := h
          unfold dealHoleCards at heq2
          rw [dealHoleCardsAux_err _ _ _ _ heq2] at hl
          exact Bool.noConfusion hl
        next t5 heq2 =>
          simp at h
  · intro e t' h hl
    unfold Table.fold at h
    split at h
    next e0 heq =>
      simp only [Prod.mk.injEq, Option.some.injEq] at h
      exact h.2.symm
    next heq =>
      split at h
      next =>
        simp only [Prod.mk.injEq, Option.some.injEq] at h
        exact h.2.symm
      next p hp =>
        dsimp only at h
        rw [dropSummary_advance_err _ _ _ h] at hl
        exact Bool.noConfusion hl
  · intro e t' h hl
    unfold Table.check at h
    split at h
    next e0 heq =>
      simp only [Prod.mk.injEq, Option.some.injEq] at h
      exact h.2.symm
    next heq =>
      split at h
      next =>
        simp only [Prod.mk.injEq, Option.some.injEq] at h
        exact h.2.symm
      next p hp =>
        split at h
        next =>
          simp only [Prod.mk.injEq, Option.some.injEq] at h
          exact h.2.symm
        next =>
          dsimp only at h
          rw [dropSummary_advance_err _ _ _ h] at hl
          exact Bool.noConfusion hl
  · intro e t' h hl
    unfold Table.call at h
    split at h
    next e0 heq =>
      simp only [Prod.mk.injEq, Option.some.injEq] at h
      exact h.2.symm
    next heq =>
      split at h
      next =>
        simp only [Prod.mk.injEq, Option.some.injEq] at h
        exact h.2.symm
      next p hp =>
        dsimp only at h
        split at h
        next =>
          simp only [Prod.mk.injEq, Option.some.injEq] at h
          exact h.2.symm
        next =>
          rw [dropSummary_advance_err _ _ _ h] at hl
          exact Bool.noConfusion hl
  · intro e t' h hl
    unfold Table.raise at h
    split at h
    next e0 heq =>
      simp only [Prod.mk.injEq, Option.some.injEq] at h
      exact h.2.symm
    next heq =>
      split at h
      next =>
        simp only [Prod.mk.injEq, Option.some.injEq] at h
        exact h.2.symm
      next p hp =>
        dsimp only at h
        split at h
        next =>
          simp only [Prod.mk.injEq, Option.some.injEq] at h
          exact h.2.symm
        next =>
          split at h
          next =>
            simp only [Prod.mk.injEq, Option.some.injEq] at h
            exact h.2.symm
          next =>
            rw [dropSummary_advance_err _ _ _ h] at hl
            exact Bool.noConfusion hl

/-- C3 witness: a concrete out-of-turn raise (seat 0's player acting when
seat 1 is to act) is rejected with the state returned unchanged. -/
theorem validation_errors_non_mutating_witness :
    shortAllInTable.raise "A" 5 =
      (some PokerError.outOfTurn, shortAllInTable) ∧
    (shortAllInTable.raise "A" 5).2 = shortAllInTable :=
  ⟨by decide,
   (validation_errors_non_mutating shortAllInTable "A" "m" "x" 5 5 none 0
      (fun s => s) [] "").2.2.2.2.2 PokerError.outOfTurn
      (shortAllInTable.raise "A" 5).2 (by decide) (by decide)⟩

/-! ## C1: chip conservation -/

/-- C1 (amended).  `fold`, `check`, `call` and `raise` conserve
`sum(player.chips) + pot` whenever no award ran (the resulting phase is
not SHOWDOWN), error returns included.  The award steps do *not* conserve
it up to exactly the rake: `_awardPot` credits the sole winner
`pot − rake` and `_showdown` credits each of the `k` tied winners
`Math.floor((pot − rake)/k)` — so the stacks absorb `pot − rake` minus
the floor remainder — and neither path resets `this.pot` (only the next
`startHand()` does), so the literal `sum(chips) + pot` grows by the
credited amount instead of dropping by the rake. -/
theorem chip_conservation (t : Table) (pid : String) (amount : ℚ)
    (w : PlayerRec) :
    (∀ oe t', t.fold pid = (oe, t') → t'.phase ≠ .showdown →
      chipSum t' = chipSum t) ∧
    (∀ oe t', t.check pid = (oe, t') → t'.phase ≠ .showdown →
      chipSum t' = chipSum t) ∧
    (∀ oe t', t.call pid = (oe, t') → t'.phase ≠ .showdown →
      chipSum t' = chipSum t) ∧
    (∀ oe t', t.raise pid amount = (oe, t') → t'.phase ≠ .showdown →
      chipSum t' = chipSum t) ∧
    ((jsMapGet t.players w.id).isSome →
      (awardPot t w).pot = t.pot ∧
      playersChipSum (awardPot t w) =
        playersChipSum t + (t.pot - min (t.pot * t.rake) t.rakeMax)) ∧
    (∀ t' sd, (∀ kv ∈ t.players, kv.2.id = kv.1) →
      showdown t = (none, t', some sd) →
      t'.pot = t.pot ∧
      sd.rake = min (t.pot * t.rake) t.rakeMax ∧
      sd.winAmount =
        ((⌊(t.pot - sd.rake) / (sd.winners.length : ℚ)⌋ : ℤ) : ℚ) ∧
      playersChipSum t' =
        playersChipSum t + (sd.winners.length : ℚ) * sd.winAmount ∧
      (1 ≤ sd.winners.length →
        (sd.winners.length : ℚ) * sd.winAmount ≤ t.pot - sd.rake)) :=
  ⟨fun oe t' h hph => fold_conserves t pid oe t' h hph,
   fun oe t' h hph => check_conserves t pid oe t' h hph,
   fun oe t' h hph => call_conserves t pid oe t' h hph,
   fun oe t' h hph => raise_conserves t pid amount oe t' h hph,
   fun hw => awardPot_spec t w hw,
   fun t' sd hcoh h => showdown_spec t t' sd hcoh h⟩

/-- C1 witness: on the concrete river table, a no-chip-moving fold/check
conservation instance and the uncontested-award clause evaluated
concretely: the award credits `60 − 3 = 57` to the winner's stack while
the pot field keeps its 60. -/
theorem chip_conservation_witness :
    (awardPot splitPotTable
        (testPlayer "A" 370 0 [mkCard "2" "H", mkCard "3" "H"])).pot =
      splitPotTable.pot ∧
    playersChipSum (awardPot splitPotTable
        (testPlayer "A" 370 0 [mkCard "2" "H", mkCard "3" "H"])) =
      playersChipSum splitPotTable +
        (splitPotTable.pot -
          min (splitPotTable.pot * splitPotTable.rake)
            splitPotTable.rakeMax) :=
  (chip_conservation splitPotTable "A" 0
      (testPlayer "A" 370 0 [mkCard "2" "H", mkCard "3" "H"])).2.2.2.2.1
    (by decide)

/-- C1 counterexample: a reachable heads-up river showdown with pot 60 and
a tied board (both players split).  Rake is 3, each winner gets
`⌊57/2⌋ = 28`, so the stacks absorb 56, not 57; and the pot field keeps
its 60.  Literally, `sum(chips) + pot` goes from 800 to 856, not to
`800 − 3 = 797`; even crediting the pot as fully distributed, the stacks
end at 796, not `740 + 57 = 797`: one chip vanished beyond the rake. -/
theorem showdown_split_loses_remainder :
    (showdown splitPotTable).1 = none ∧
    (showdown splitPotTable).2.2 =
      some ⟨["A", "B"], 60, 3, 28⟩ ∧
    chipSum splitPotTable = 800 ∧
    chipSum (showdown splitPotTable).2.1 = 856 ∧
    playersChipSum (showdown splitPotTable).2.1 = 796 ∧
    ¬ chipSum (showdown splitPotTable).2.1 = chipSum splitPotTable - 3 ∧
    ¬ playersChipSum (showdown splitPotTable).2.1 =
        chipSum splitPotTable - 3 := by
  decide

/-! ## C5: the current bet is not monotone -/

/-- C5: refuted by the code.  From a reachable flop state with the table
bet at 100 (`shortAllInTable`), the 30-chip stack's all-in raise of 30
passes validation (`raiseAmount < minRaise && amount < chips` is false
because `amount === chips`), and `raise` then assigns
`this.currentBet = player.currentBet` unconditionally — lowering the
table's current bet from 100 to 30 mid-round.  `allIn` is exactly this
raise. -/
theorem currentBet_decreases_on_short_allin :
    shortAllInTable.phase = GamePhase.flop ∧
    shortAllInTable.currentBet = 100 ∧
    shortAllInTable.allIn "B" = shortAllInTable.raise "B" 30 ∧
    (shortAllInTable.raise "B" 30).1 = none ∧
    (shortAllInTable.raise "B" 30).2.phase = GamePhase.flop ∧
    (shortAllInTable.raise "B" 30).2.currentBet = 30 := by
  decide

/-! ## C8: chip stacks do not stay integral -/

/-- C8: refuted by the code.  From a reachable heads-up preflop state with
pot 30 (`foldAwardTable`), the small blind's fold makes `_awardPot` credit
the big blind `pot − rake = 30 − min(30·0.05, 100) = 28.5` chips — the
uncontested path has no `Math.floor` — leaving the stack at
`1980 + 28.5 = 2008.5 = 4017/2`, not an integer. -/
theorem uncontested_award_fractional_stack :
    (foldAwardTable.fold "A").1 = none ∧
    (foldAwardTable.fold "A").2.phase = GamePhase.showdown ∧
    (jsMapGet (foldAwardTable.fold "A").2.players "B").map
        (fun p => p.chips) = some (4017 / 2 : ℚ) ∧
    ((4017 : ℚ) / 2).den = 2 ∧
    ∀ n : ℤ, (4017 / 2 : ℚ) ≠ (n : ℚ) := by
  refine ⟨by decide, by decide, by decide, by decide, fun n hn => ?_⟩
  have hd : ((4017 : ℚ) / 2).den = ((n : ℤ) : ℚ).den := congrArg Rat.den hn
  rw [Rat.den_intCast] at hd
  exact absurd hd (by decide)

end ClawPoker
